import Mathlib

/-!
Verification of the article-extractor core: the text chunker
(`src/utils/text_chunker.py`), the resilient extraction client
(`src/utils/ai_processor.py`) and the JSON output formatter
(`src/utils/output_formatter.py`), shallowly embedded over `List Char`
models of Python strings.

Python strings are modelled as `List Char`; Python `str` helpers that the
source calls (`strip`, `find`, `lower`, substring membership) are given
faithful executable models below.
-/

namespace ArticleExtractor

/-- Python whitespace for ASCII text: the characters stripped by `str.strip()`
and matched by the regex class `\s`. -/
def pyWs (c : Char) : Bool :=
  c = ' ' || c = '\t' || c = '\n' || c = '\r' || c = '\x0b' || c = '\x0c'

/-- Model of Python `str.strip()`: drop whitespace from both ends. -/
def pyStrip (l : List Char) : List Char :=
  ((l.dropWhile pyWs).reverse.dropWhile pyWs).reverse

/-- ASCII lowercasing, the fragment of Python `str.lower()` exercised here. -/
def asciiLower (c : Char) : Char :=
  if 'A' ≤ c ∧ c ≤ 'Z' then Char.ofNat (c.toNat + 32) else c

/-- Lowercase a whole string (model of `str.lower()`). -/
def pyLower (l : List Char) : List Char := l.map asciiLower

/-- First index `≥ i` at which `sub` occurs in `hay` (helper for `str.find`). -/
def subIndexAux (sub : List Char) (hay : List Char) (i : Nat) : Option Nat :=
  if sub.isPrefixOf hay then some i
  else
    match hay with
    | [] => none
    | _ :: t => subIndexAux sub t (i + 1)

/-- Model of Python `sub in hay` (substring membership). -/
def containsSub (hay sub : List Char) : Bool :=
  (subIndexAux sub hay 0).isSome

/-- The slice-style clamping Python applies to a negative `start` argument of
`str.find` (counted from the end, floored at 0). -/
def pyClamp (len : Nat) (start : Int) : Nat :=
  if start < 0 then (len + start).toNat else start.toNat

/-- Model of Python `hay.find(sub, start)`: clamp `start`, then return the
lowest index `≥ start` of an occurrence of `sub`, or `-1` when there is
none. -/
def pyFind (hay sub : List Char) (start : Int) : Int :=
  if pyClamp hay.length start > hay.length then -1
  else
    match subIndexAux sub (hay.drop (pyClamp hay.length start)) 0 with
    | some j => (pyClamp hay.length start + j : Nat)
    | none => -1

/-! ## TextChunker (`src/utils/text_chunker.py`) -/

/-- The chunker configuration held by a `TextChunker` instance. -/
structure TextChunker where
  chunk_size : Nat
  chunk_overlap : Nat
deriving DecidableEq

/-- `TextChunker.__init__`: raises `ValueError` when
`chunk_overlap >= chunk_size`. -/
def mkTextChunker (chunk_size chunk_overlap : Nat) : Except String TextChunker :=
  if chunk_overlap ≥ chunk_size then
    .error "chunk_overlap must be less than chunk_size"
  else
    .ok ⟨chunk_size, chunk_overlap⟩

/-- The `while start < len(text)` loop of `chunk_by_characters`, phrased on the
remaining text: each round emits `text[start:start+size]` and advances `start`
by `step = chunk_size - chunk_overlap`.  The loop terminates in Python only
when `step ≥ 1` (valid configurations); the fuel equals the initial text
length, which suffices exactly in that case. -/
def chunkCharsAux (size step : Nat) : Nat → List Char → List (List Char)
  | _, [] => []
  | 0, _ :: _ => []
  | fuel + 1, r@(_ :: _) => r.take size :: chunkCharsAux size step fuel (r.drop step)

/-- `TextChunker.chunk_by_characters`. -/
def chunk_by_characters (c : TextChunker) (text : List Char) : List (List Char) :=
  chunkCharsAux c.chunk_size (c.chunk_size - c.chunk_overlap) text.length text

/-- One step of `re.split(r'(?<=[.!?])\s+', text)`: split before each maximal
whitespace run that immediately follows `.`, `!` or `?`.  `cur` holds the
characters of the current fragment in reverse; the fuel equals the remaining
input length plus one. -/
def sentSplitAux : Nat → List Char → List Char → List (List Char)
  | _, [], cur => [cur.reverse]
  | 0, _ :: _, cur => [cur.reverse]
  | fuel + 1, c :: rest, cur =>
    if pyWs c ∧ (cur.head? = some '.' ∨ cur.head? = some '!' ∨ cur.head? = some '?') then
      cur.reverse :: sentSplitAux fuel (rest.dropWhile pyWs) []
    else
      sentSplitAux fuel rest (c :: cur)

/-- The sentence list of `chunk_by_sentences`: regex split, then
`[s.strip() for s in sentences if s.strip()]`. -/
def splitSentences (text : List Char) : List (List Char) :=
  ((sentSplitAux (text.length + 1) text []).map pyStrip).filter (· ≠ [])

/-- One step of `re.split(r'\n\s*\n', text)`: a separator is a newline, then
greedy `\s*`, then a final newline inside that whitespace run. -/
def paraSplitAux : Nat → List Char → List Char → List (List Char)
  | _, [], cur => [cur.reverse]
  | 0, _ :: _, cur => [cur.reverse]
  | fuel + 1, c :: rest, cur =>
    if c = '\n' then
      -- Greedy `\s*\n`: find the last newline inside the whitespace run
      -- following this one; if none, the pattern does not match here.
      let run := rest.takeWhile pyWs
      if '\n' ∈ run then
        let k := (run.reverse.dropWhile (· ≠ '\n')).length
        cur.reverse :: paraSplitAux fuel (rest.drop k) []
      else
        paraSplitAux fuel rest (c :: cur)
    else
      paraSplitAux fuel rest (c :: cur)

/-- The paragraph list of `chunk_by_paragraphs`: regex split, then strip and
discard empties. -/
def splitParagraphs (text : List Char) : List (List Char) :=
  ((paraSplitAux (text.length + 1) text []).map pyStrip).filter (· ≠ [])

/-- The `overlap_buffer` loop shared by `chunk_by_sentences` and
`chunk_by_paragraphs`: walk the just-closed chunk's units in reverse,
prepending each to the buffer, and stop as soon as the accumulated length
(each unit's length plus `sepLen`) reaches `chunk_overlap`. -/
def windowRev (overlap sepLen : Nat) (l : List (List Char)) (len : Nat)
    (buf : List (List Char)) : List (List Char) :=
  match l with
  | [] => buf
  | s :: rest =>
    if overlap ≤ len + s.length + sepLen then s :: buf
    else windowRev overlap sepLen rest (len + s.length + sepLen) (s :: buf)

/-- The trailing window of units carried into the next chunk. -/
def overlapWindow (overlap sepLen : Nat) (units : List (List Char)) : List (List Char) :=
  windowRev overlap sepLen units.reverse 0 []

/-- The accumulation loop shared by `chunk_by_sentences` (`sepLen = 1`) and
`chunk_by_paragraphs` (`sepLen = 2`), kept at the unit level: the source
joins `current_chunk` when appending to `chunks`, which is applied by `map`
in the wrappers below. -/
def unitsChunkAux (size overlap sepLen : Nat) (units cur : List (List Char))
    (curLen : Nat) : List (List (List Char)) :=
  match units with
  | [] => if cur = [] then [] else [cur]
  | u :: rest =>
    if size < curLen + (u.length + sepLen) ∧ cur ≠ [] then
      cur :: unitsChunkAux size overlap sepLen rest
        (overlapWindow overlap sepLen cur ++ [u])
        (((overlapWindow overlap sepLen cur).map (fun s => s.length + sepLen)).sum
          + (u.length + sepLen))
    else
      unitsChunkAux size overlap sepLen rest (cur ++ [u]) (curLen + (u.length + sepLen))

/-- The unit-level chunks of `chunk_by_sentences`. -/
def chunkSentenceUnits (c : TextChunker) (text : List Char) : List (List (List Char)) :=
  unitsChunkAux c.chunk_size c.chunk_overlap 1 (splitSentences text) [] 0

/-- The unit-level chunks of `chunk_by_paragraphs`. -/
def chunkParagraphUnits (c : TextChunker) (text : List Char) : List (List (List Char)) :=
  unitsChunkAux c.chunk_size c.chunk_overlap 2 (splitParagraphs text) [] 0

/-- `' '.join(...)` / `'\n\n'.join(...)`. -/
def joinSep (sep : List Char) (units : List (List Char)) : List Char :=
  match units with
  | [] => []
  | u :: rest => u ++ (rest.map (fun v => sep ++ v)).flatten

/-- `TextChunker.chunk_by_sentences`. -/
def chunk_by_sentences (c : TextChunker) (text : List Char) : List (List Char) :=
  (chunkSentenceUnits c text).map (joinSep [' '])

/-- `TextChunker.chunk_by_paragraphs`. -/
def chunk_by_paragraphs (c : TextChunker) (text : List Char) : List (List Char) :=
  (chunkParagraphUnits c text).map (joinSep ['\n', '\n'])

/-- Method dispatch used by `chunk_with_metadata` and
`get_chunks_by_token_limit`: any method string other than `"sentences"` and
`"paragraphs"` selects `chunk_by_characters`. -/
def dispatchChunks (c : TextChunker) (method : String) (text : List Char) : List (List Char) :=
  if method = "sentences" then chunk_by_sentences c text
  else if method = "paragraphs" then chunk_by_paragraphs c text
  else chunk_by_characters c text

/-- One record of `chunk_with_metadata`'s result list. -/
structure ChunkMeta where
  chunk_id : Nat
  text : List Char
  length : Nat
  start_position : Int
  end_position : Int
  method : String
deriving DecidableEq

/-- The `for idx, chunk in enumerate(chunks)` loop of `chunk_with_metadata`:
`char_position = text.find(chunk, char_position)`, record, then
`char_position += len(chunk)`. -/
def chunkMetaAux (orig : List Char) (method : String) :
    List (List Char) → Nat → Int → List ChunkMeta
  | [], _, _ => []
  | ch :: rest, idx, pos =>
    let p := pyFind orig ch pos
    { chunk_id := idx
      text := ch
      length := ch.length
      start_position := p
      end_position := p + ch.length
      method := method } :: chunkMetaAux orig method rest (idx + 1) (p + ch.length)

/-- `TextChunker.chunk_with_metadata`. -/
def chunk_with_metadata (c : TextChunker) (text : List Char) (method : String) :
    List ChunkMeta :=
  chunkMetaAux text method (dispatchChunks c method text) 0 0

/-- `TextChunker.get_chunks_by_token_limit`: derives
`estimated_char_limit = int(max_tokens / 0.25)` (exactly `4 * max_tokens` for
the machine-integer range), runs the selected strategy with the overridden
`chunk_size`, and restores the original `chunk_size` in a `finally` block.
The resulting instance state is returned alongside the chunks. -/
def get_chunks_by_token_limit (c : TextChunker) (text : List Char)
    (max_tokens : Nat) (method : String) : List (List Char) × TextChunker :=
  let estimated_char_limit := 4 * max_tokens
  let override := { c with chunk_size := estimated_char_limit }
  let chunks := dispatchChunks override method text
  (chunks, { override with chunk_size := c.chunk_size })

/-! ## JSON values (model of the Python `json` module's data)

The provider responses carry JSON; `_parse_json_response` calls `json.loads`
and `format_as_json` calls `json.dumps(data, indent=2, ensure_ascii=False)`.
These library functions are modelled below over an executable JSON value
type (integers for JSON numbers; float literals are out of scope). -/

inductive Json where
  | null
  | bool (b : Bool)
  | num (n : Int)
  | str (s : List Char)
  | arr (elems : List Json)
  | obj (members : List (List Char × Json))
deriving Repr

/-- Python truthiness of a JSON value, as used by `result or {}`:
`None`, `False`, `0`, `""`, `[]` and `{}` are falsy. -/
def pyTruthy : Json → Bool
  | .null => false
  | .bool b => b
  | .num n => n != 0
  | .str s => !s.isEmpty
  | .arr xs => !xs.isEmpty
  | .obj ms => !ms.isEmpty

/-- JSON insignificant whitespace (the characters `json.loads` skips between
tokens). -/
def isJsonWs (c : Char) : Bool := c = ' ' || c = '\t' || c = '\n' || c = '\r'

/-- Skip insignificant whitespace. -/
def skipWs (l : List Char) : List Char := l.dropWhile isJsonWs

/-- Strip insignificant whitespace from both ends. -/
def jsonStrip (l : List Char) : List Char :=
  ((l.dropWhile isJsonWs).reverse.dropWhile isJsonWs).reverse

/-- Decode a JSON string escape (`\"`, `\\`, `\/`, `\n`, `\t`, `\r`;
`\b`, `\f` and `\uXXXX` are outside the modelled fragment). -/
def escDecode (c : Char) : Option Char :=
  if c = '"' then some '"'
  else if c = '\\' then some '\\'
  else if c = '/' then some '/'
  else if c = 'n' then some '\n'
  else if c = 't' then some '\t'
  else if c = 'r' then some '\r'
  else none

/-- Parse the body of a JSON string after the opening quote, returning the
decoded content and the input after the closing quote.  Raw control
characters are rejected, as in `json.loads` strict mode. -/
def parseStringBody (l : List Char) : Option (List Char × List Char) :=
  match l with
  | [] => none
  | c :: rest =>
    if c = '"' then some ([], rest)
    else if c = '\\' then
      match rest with
      | [] => none
      | e :: rest2 =>
        (escDecode e).bind fun d =>
          (parseStringBody rest2).map fun sr => (d :: sr.1, sr.2)
    else if c.toNat < 32 then none
    else (parseStringBody rest).map fun sr => (c :: sr.1, sr.2)

/-- ASCII decimal digit test (`'0'` through `'9'`). -/
def isDigitC (c : Char) : Bool := 48 ≤ c.toNat && c.toNat ≤ 57

/-- Numeric value of a decimal digit character. -/
def digitVal (c : Char) : Nat := c.toNat - 48

/-- Value of a list of decimal digit characters. -/
def digitsVal (ds : List Char) : Nat := ds.foldl (fun a c => a * 10 + digitVal c) 0

/-- Parse a JSON unsigned integer token (no leading zeros). -/
def parseNatTok (l : List Char) : Option (Nat × List Char) :=
  let ds := l.takeWhile isDigitC
  if ds = [] then none
  else if 1 < ds.length ∧ ds.head? = some '0' then none
  else some (digitsVal ds, l.dropWhile isDigitC)

/-- Parse a JSON integer token with optional leading minus sign. -/
def parseNumTok (l : List Char) : Option (Json × List Char) :=
  if l.head? = some '-' then
    (parseNatTok l.tail).map fun nr => (.num (-(nr.1 : Int)), nr.2)
  else
    (parseNatTok l).map fun nr => (.num (nr.1 : Int), nr.2)

/-- Parsing mode: a single value, the members of an object after `{`, or the
elements of an array after `[` (with the members/elements read so far). -/
inductive PMode where
  | val
  | mems (acc : List (List Char × Json))
  | elems (acc : List Json)

/-- Recursive-descent JSON parser.  The fuel only bounds the recursion depth;
`jsonParse` supplies enough fuel for any input, since every recursive call
consumes at least one character and spends at most two units of fuel. -/
def parseF : Nat → PMode → List Char → Option (Json × List Char)
  | 0, _, _ => none
  | fuel + 1, .val, l =>
    if (skipWs l).head? = some '{' then
      if (skipWs (skipWs l).tail).head? = some '}' then
        some (.obj [], (skipWs (skipWs l).tail).tail)
      else parseF fuel (.mems []) (skipWs (skipWs l).tail)
    else if (skipWs l).head? = some '[' then
      if (skipWs (skipWs l).tail).head? = some ']' then
        some (.arr [], (skipWs (skipWs l).tail).tail)
      else parseF fuel (.elems []) (skipWs (skipWs l).tail)
    else if (skipWs l).head? = some '"' then
      (parseStringBody (skipWs l).tail).map fun sr => (.str sr.1, sr.2)
    else if "true".toList.isPrefixOf (skipWs l) then
      some (.bool true, (skipWs l).drop 4)
    else if "false".toList.isPrefixOf (skipWs l) then
      some (.bool false, (skipWs l).drop 5)
    else if "null".toList.isPrefixOf (skipWs l) then
      some (.null, (skipWs l).drop 4)
    else parseNumTok (skipWs l)
  | fuel + 1, .mems acc, l =>
    if (skipWs l).head? = some '"' then
      (parseStringBody (skipWs l).tail).bind fun kr =>
        if (skipWs kr.2).head? = some ':' then
          (parseF fuel .val (skipWs kr.2).tail).bind fun vr =>
            if (skipWs vr.2).head? = some ',' then
              parseF fuel (.mems (acc ++ [(kr.1, vr.1)])) (skipWs vr.2).tail
            else if (skipWs vr.2).head? = some '}' then
              some (.obj (acc ++ [(kr.1, vr.1)]), (skipWs vr.2).tail)
            else none
        else none
    else none
  | fuel + 1, .elems acc, l =>
    (parseF fuel .val l).bind fun vr =>
      if (skipWs vr.2).head? = some ',' then
        parseF fuel (.elems (acc ++ [vr.1])) (skipWs vr.2).tail
      else if (skipWs vr.2).head? = some ']' then
        some (.arr (acc ++ [vr.1]), (skipWs vr.2).tail)
      else none

/-- The shapes of text that can follow a serialised value inside
`json.dumps(·, indent=2)` output: nothing, a comma, or a newline. -/
def restOk (rest : List Char) : Prop :=
  rest = [] ∨ ∃ c t, rest = c :: t ∧ (c = ',' ∨ c = '\n')

/-- Model of `json.loads`: parse one JSON value surrounded only by
insignificant whitespace. -/
def jsonParse (l : List Char) : Option Json :=
  let c := jsonStrip l
  match parseF (2 * c.length + 2) .val c with
  | some (v, r) => if r = [] then some v else none
  | none => none

/-! ## JSON serialisation (model of `json.dumps(data, indent=2,
ensure_ascii=False)`, the `pretty=True` default of `format_as_json`) -/

/-- Decimal digits of `n`, most significant first; structural fuel, with
`natChars` supplying `n + 1` which always suffices. -/
def natDigitsFuel : Nat → Nat → List Char
  | 0, _ => []
  | fuel + 1, n =>
    if n < 10 then [Char.ofNat (48 + n)]
    else natDigitsFuel fuel (n / 10) ++ [Char.ofNat (48 + n % 10)]

/-- Decimal representation of a natural number. -/
def natChars (n : Nat) : List Char := natDigitsFuel (n + 1) n

/-- Decimal representation of an integer, as Python prints `int`. -/
def intChars (n : Int) : List Char :=
  if n < 0 then '-' :: natChars n.natAbs else natChars n.toNat

/-- Serialise one character of a JSON string (`json.dumps` escaping for the
modelled character set). -/
def escapeChar (c : Char) : List Char :=
  if c = '"' then ['\\', '"']
  else if c = '\\' then ['\\', '\\']
  else if c = '\n' then ['\\', 'n']
  else if c = '\t' then ['\\', 't']
  else if c = '\r' then ['\\', 'r']
  else [c]

/-- Serialise a JSON string with quotes and escapes. -/
def encStr (s : List Char) : List Char := '"' :: (s.map escapeChar).flatten ++ ['"']

/-- Indentation at nesting level `lvl` for `indent=2`. -/
def indentChars (lvl : Nat) : List Char := List.replicate (2 * lvl) ' '

mutual

/-- Pretty-printed JSON at nesting level `lvl`, exactly as
`json.dumps(data, indent=2, ensure_ascii=False)` lays it out. -/
def prettyJ : Json → Nat → List Char
  | .null, _ => "null".toList
  | .bool true, _ => "true".toList
  | .bool false, _ => "false".toList
  | .num n, _ => intChars n
  | .str s, _ => encStr s
  | .arr [], _ => "[]".toList
  | .arr (x :: xs), lvl =>
    '[' :: '\n' :: prettyElems (x :: xs) (lvl + 1) ++ '\n' :: indentChars lvl ++ [']']
  | .obj [], _ => "{}".toList
  | .obj (m :: ms), lvl =>
    '{' :: '\n' :: prettyMems (m :: ms) (lvl + 1) ++ '\n' :: indentChars lvl ++ ['}']

/-- Array elements, one per line, comma-separated. -/
def prettyElems : List Json → Nat → List Char
  | [], _ => []
  | [x], lvl => indentChars lvl ++ prettyJ x lvl
  | x :: y :: xs, lvl =>
    indentChars lvl ++ prettyJ x lvl ++ ',' :: '\n' :: prettyElems (y :: xs) lvl

/-- Object members, one per line, comma-separated, `": "` after each key. -/
def prettyMems : List (List Char × Json) → Nat → List Char
  | [], _ => []
  | [(k, v)], lvl => indentChars lvl ++ encStr k ++ ':' :: ' ' :: prettyJ v lvl
  | (k, v) :: m :: ms, lvl =>
    indentChars lvl ++ encStr k ++ ':' :: ' ' :: prettyJ v lvl ++ ',' :: '\n' :: prettyMems (m :: ms) lvl

end

/-- `format_as_json(data)` with the default `pretty=True`:
`json.dumps(data, indent=2, ensure_ascii=False)`. -/
def format_as_json (data : Json) : List Char := prettyJ data 0

mutual

/-- Size measure for the parser fuel accounting. -/
def sizeJ : Json → Nat
  | .null => 1
  | .bool _ => 1
  | .num _ => 1
  | .str _ => 1
  | .arr xs => 1 + sizeL xs
  | .obj ms => 1 + sizeM ms

/-- Size of an element list (two fuel units per element). -/
def sizeL : List Json → Nat
  | [] => 0
  | x :: xs => 2 + sizeJ x + sizeL xs

/-- Size of a member list (two fuel units per member). -/
def sizeM : List (List Char × Json) → Nat
  | [] => 0
  | (_, v) :: ms => 2 + sizeJ v + sizeM ms

end

/-- A character the modelled serialiser can emit inside a string: printable,
or one of the three escapable control characters. -/
def wfChar (c : Char) : Bool :=
  32 ≤ c.toNat || c = '\n' || c = '\t' || c = '\r'

/-- JSON values whose strings contain only `wfChar` characters — exactly the
values the modelled parser can produce. -/
inductive WfJ : Json → Prop where
  | null : WfJ .null
  | bool (b : Bool) : WfJ (.bool b)
  | num (n : Int) : WfJ (.num n)
  | str (s : List Char) : (∀ c ∈ s, wfChar c) → WfJ (.str s)
  | arr (xs : List Json) : (∀ x ∈ xs, WfJ x) → WfJ (.arr xs)
  | obj (ms : List (List Char × Json)) :
      (∀ kv ∈ ms, ∀ c ∈ kv.1, wfChar c) →
      (∀ kv ∈ ms, WfJ kv.2) → WfJ (.obj ms)

/-! ## Response parser (`AIProcessor._parse_json_response`) -/

/-- The `'```json'` fence opener. -/
def fenceJson : List Char := ['`', '`', '`', 'j', 's', 'o', 'n']

/-- The bare `'```'` fence. -/
def fence : List Char := ['`', '`', '`']

/-- `if cleaned.startswith('```json'): cleaned = cleaned[7:]`. -/
def stripFence1 (c0 : List Char) : List Char :=
  if fenceJson.isPrefixOf c0 then c0.drop 7 else c0

/-- `if cleaned.startswith('```'): cleaned = cleaned[3:]`. -/
def stripFence2 (c1 : List Char) : List Char :=
  if fence.isPrefixOf c1 then c1.drop 3 else c1

/-- `if cleaned.endswith('```'): cleaned = cleaned[:-3]`. -/
def stripFence3 (c2 : List Char) : List Char :=
  if fence.isSuffixOf c2 then c2.take (c2.length - 3) else c2

/-- The fence-stripping phase of `_parse_json_response`: strip, drop a
leading `'```json'` (7 characters), then a leading `'```'` (3 characters),
then a trailing `'```'`, then strip again. -/
def cleanResponse (l : List Char) : List Char :=
  pyStrip (stripFence3 (stripFence2 (stripFence1 (pyStrip l))))

/-- The span matched by `re.search(r'\{.*\}', cleaned, re.DOTALL)`: from the
first `{` having a later `}` through the last `}`. -/
def braceSpan (l : List Char) : Option (List Char) :=
  match l.findIdx? (· = '{'), (l.reverse.findIdx? (· = '}')).map (fun j => l.length - 1 - j) with
  | some i, some j => if i < j then some ((l.drop i).take (j - i + 1)) else none
  | _, _ => none

/-- `AIProcessor._parse_json_response`: strip fences, try a direct parse,
fall back to the greedy brace span, and raise (here: return `.error`) when
both fail.  The error strings model the Python exception messages. -/
def parseJsonResponse (l : List Char) : Except (List Char) Json :=
  let c := cleanResponse l
  match jsonParse c with
  | some v => .ok v
  | none =>
    match braceSpan c with
    | some sub =>
      match jsonParse sub with
      | some v => .ok v
      | none => .error "Expecting value: line 1 column 1 (char 0)".toList
    | none => .error "Failed to parse JSON response: Expecting value".toList

/-- Wrap a payload in a `'```json'`-tagged fenced code block. -/
def wrapJsonFence (s : List Char) : List Char :=
  "```json\n".toList ++ s ++ "\n```".toList

/-- Wrap a payload in a bare fenced code block. -/
def wrapBareFence (s : List Char) : List Char :=
  "```\n".toList ++ s ++ "\n```".toList

/-! ## Extraction client (`src/utils/ai_processor.py`) -/

/-- The two supported provider kinds (`'gemini'` and `'gpt4o-mini'`). -/
inductive Provider where
  | gemini
  | gpt4o_mini
deriving DecidableEq

/-- The retryable-error keyword list of `_call_gemini_with_retry`
(`'temporarily'` is absent) and of `_call_gpt_with_retry` (present). -/
def providerKeywords : Provider → List (List Char)
  | .gemini =>
    ["timeout".toList, "connection".toList, "rate".toList, "429".toList,
     "500".toList, "503".toList, "502".toList]
  | .gpt4o_mini =>
    ["timeout".toList, "connection".toList, "rate".toList, "429".toList,
     "500".toList, "503".toList, "502".toList, "temporarily".toList]

/-- `is_retryable`: some keyword occurs in the lowercased error message. -/
def isRetryableError (kws : List (List Char)) (msg : List Char) : Bool :=
  kws.any (fun k => containsSub (pyLower msg) k)

/-- The configuration of an `AIProcessor` instance that the retry logic
reads. -/
structure AIProcessor where
  model_type : Provider
  max_retries : Nat
  initial_wait_time : Nat

/-- Observable outcome of one `_call_*_with_retry` run: the returned response
or raised error, the number of provider calls made, and the sequence of
backoff sleeps (in seconds) in order. -/
structure RetryTrace where
  result : Except (List Char) (List Char)
  calls : Nat
  sleeps : List Nat

/-- The `for attempt in range(max_retries)` loop shared by
`_call_gemini_with_retry` and `_call_gpt_with_retry`.  The provider call is
abstracted as an oracle from the attempt number to its outcome.  `rem` is the
number of loop iterations left (`max_retries - attempt`); on a non-retryable
error or the last attempt the error is re-raised, otherwise the loop sleeps
`initial_wait_time * 2 ** attempt` and continues.  Fuel exhaustion with
iterations remaining cannot occur (`rem` starts at `maxR`); the zero case is
the defensive `RuntimeError` raised when the loop body never runs. -/
def retryAux (kws : List (List Char)) (wait maxR : Nat)
    (oracle : Nat → Except (List Char) (List Char)) :
    Nat → Nat → RetryTrace
  | 0, _ => ⟨.error "Maximum retry attempts failed".toList, 0, []⟩
  | rem + 1, attempt =>
    match oracle attempt with
    | .ok s => ⟨.ok s, 1, []⟩
    | .error e =>
      if isRetryableError kws e = false ∨ attempt = maxR - 1 then ⟨.error e, 1, []⟩
      else
        let t := retryAux kws wait maxR oracle rem (attempt + 1)
        ⟨t.result, t.calls + 1, wait * 2 ^ attempt :: t.sleeps⟩

/-- A full `_call_*_with_retry` run from attempt 0. -/
def callWithRetry (kws : List (List Char)) (wait maxR : Nat)
    (oracle : Nat → Except (List Char) (List Char)) : RetryTrace :=
  retryAux kws wait maxR oracle maxR 0

/-- The uniform result envelope of `extract_structure`. -/
structure ExtractionResult where
  success : Bool
  data : Option Json
  raw_response : Option (List Char)
  error : Option (List Char)
  retry_count : Nat

/-- The failure envelope built in the `except` branch. -/
def failEnvelope (p : AIProcessor) (e : List Char) : ExtractionResult :=
  ⟨false, none, none, some e, p.max_retries⟩

/-- `AIProcessor.extract_structure`.  `render` is the outcome of
`user_prompt_template.format(...)` (step 1, which can itself raise), the
oracle is the provider call; the retry trace is returned alongside the
envelope so call counts and sleeps are observable. -/
def extract_structure (p : AIProcessor) (render : Except (List Char) (List Char))
    (oracle : Nat → Except (List Char) (List Char)) :
    ExtractionResult × Nat × List Nat :=
  match render with
  | .error e => (failEnvelope p e, 0, [])
  | .ok _ =>
    let t := callWithRetry (providerKeywords p.model_type) p.initial_wait_time p.max_retries oracle
    match t.result with
    | .error e => (failEnvelope p e, t.calls, t.sleeps)
    | .ok resp =>
      match parseJsonResponse resp with
      | .error e => (failEnvelope p e, t.calls, t.sleeps)
      | .ok j =>
        (⟨true, some (if pyTruthy j then j else .obj []), some resp, none, 0⟩, t.calls, t.sleeps)


theorem subIndexAux_some_bound (sub : List Char) :
    ∀ (hay : List Char) (i j : Nat), subIndexAux sub hay i = some j →
      i ≤ j ∧ j - i + sub.length ≤ hay.length
  | hay, i, j, h => by
    rw [subIndexAux.eq_def] at h
    by_cases hp : sub.isPrefixOf hay
    · rw [if_pos hp] at h
      cases h
      have := (List.isPrefixOf_iff_prefix.mp hp).length_le
      omega
    · rw [if_neg hp] at h
      match hay, h with
      | _ :: t, h =>
        have ih := subIndexAux_some_bound sub t (i + 1) j h
        simp only [List.length_cons]
        omega

theorem pyFind_spec (hay sub : List Char) (start : Int) :
    pyFind hay sub start = -1 ∨
      (0 ≤ pyFind hay sub start ∧
        (pyFind hay sub start).toNat + sub.length ≤ hay.length) := by
  unfold pyFind
  generalize pyClamp hay.length start = st
  split
  · exact Or.inl rfl
  case isFalse hst =>
    split
    case h_1 j hj =>
      right
      have hb := subIndexAux_some_bound sub _ 0 j hj
      rw [List.length_drop] at hb
      constructor
      · positivity
      · rw [Int.toNat_ofNat]
        omega
    case h_2 => exact Or.inl rfl

theorem chunkMetaAux_invariant (orig : List Char) (method : String) :
    ∀ (chunks : List (List Char)) (idx : Nat) (pos : Int) (r : ChunkMeta),
      r ∈ chunkMetaAux orig method chunks idx pos →
      r.end_position = r.start_position + r.length
      ∧ r.length = r.text.length
      ∧ r.start_position ≤ r.end_position
      ∧ (0 ≤ r.start_position → r.end_position ≤ orig.length)
  | ch :: rest, idx, pos, r, hr => by
    rw [chunkMetaAux] at hr
    rcases List.mem_cons.mp hr with h | h
    · subst h
      refine ⟨rfl, rfl, by simp, ?_⟩
      intro hpos
      simp only at hpos ⊢
      rcases pyFind_spec orig ch pos with hf | ⟨hf0, hfb⟩
      · omega
      · omega
    · exact chunkMetaAux_invariant orig method rest (idx + 1) (pyFind orig ch pos + ch.length) r h

/-- C2 (amended): every record of `chunk_with_metadata` satisfies
`end_position = start_position + length` and `length = len(text)`, hence
`start_position ≤ end_position`; and whenever the forward search succeeded
(`start_position ≥ 0`) also `end_position ≤ len(original text)`.  The claim's
unconditional `0 ≤ start_offset` fails: when a chunk does not occur in the
original text at or after the search cursor, Python's `find` returns `-1`
and the record carries `start_position = -1`. -/
theorem C2_chunk_with_metadata_offsets (c : TextChunker) (text : List Char)
    (method : String) (r : ChunkMeta)
    (hr : r ∈ chunk_with_metadata c text method) :
    r.end_position = r.start_position + r.length
    ∧ r.length = r.text.length
    ∧ r.start_position ≤ r.end_position
    ∧ (0 ≤ r.start_position → r.end_position ≤ text.length) :=
  chunkMetaAux_invariant text method (dispatchChunks c method text) 0 0 r hr

/-- C2 witness: on `"abcdef"` with size 3, overlap 0, the second record is
`(start 3, end 6, length 3)` and satisfies the offset invariant. -/
theorem C2_witness :
    (⟨1, "def".toList, 3, 3, 6, "characters"⟩ : ChunkMeta).end_position ≤
      ("abcdef".toList.length : Int)
    ∧ (⟨1, "def".toList, 3, 3, 6, "characters"⟩ : ChunkMeta).end_position
      = (⟨1, "def".toList, 3, 3, 6, "characters"⟩ : ChunkMeta).start_position
        + (⟨1, "def".toList, 3, 3, 6, "characters"⟩ : ChunkMeta).length := by
  have h := C2_chunk_with_metadata_offsets ⟨3, 0⟩ "abcdef".toList "characters"
    ⟨1, "def".toList, 3, 3, 6, "characters"⟩ (by decide)
  exact ⟨h.2.2.2 (by decide), h.1⟩

/-- C2 counterexample: with size 3, overlap 2 on `"abcd"`, the forward-only
search misses chunk 1 (`"bcd"`, which occurs only before the cursor), so its
record has `start_position = -1 < 0`, refuting `0 ≤ start_offset` for every
chunk. -/
theorem C2_counterexample :
    (chunk_with_metadata ⟨3, 2⟩ "abcd".toList "characters").map
        (fun r => r.start_position) = [0, -1, 2, -1]
    ∧ (chunk_with_metadata ⟨3, 2⟩ "abcd".toList "characters").get? 1 =
        some ⟨1, "bcd".toList, 3, -1, 2, "characters"⟩ := by
  exact ⟨by decide, by decide⟩


theorem windowRev_mem (overlap sepLen : Nat) :
    ∀ (l : List (List Char)) (len : Nat) (buf : List (List Char)) (x : List Char),
      x ∈ windowRev overlap sepLen l len buf → x ∈ l ∨ x ∈ buf
  | [], len, buf, x, h => by
    rw [windowRev] at h
    exact Or.inr h
  | s :: rest, len, buf, x, h => by
    rw [windowRev] at h
    split at h
    · rcases List.mem_cons.mp h with h | h
      · exact Or.inl (by simp [h])
      · exact Or.inr h
    · rcases windowRev_mem overlap sepLen rest _ _ x h with h | h
      · exact Or.inl (List.mem_cons_of_mem _ h)
      · rcases List.mem_cons.mp h with h | h
        · exact Or.inl (by simp [h])
        · exact Or.inr h

theorem overlapWindow_mem (overlap sepLen : Nat) (units : List (List Char))
    (x : List Char) (h : x ∈ overlapWindow overlap sepLen units) : x ∈ units := by
  rcases windowRev_mem overlap sepLen units.reverse 0 [] x h with h | h
  · exact List.mem_reverse.mp h
  · simp at h

theorem overlapWindow_zero (sepLen : Nat) (us : List (List Char)) (u : List Char) :
    overlapWindow 0 sepLen (us ++ [u]) = [u] := by
  unfold overlapWindow
  rw [List.reverse_append]
  simp only [List.reverse_cons, List.reverse_nil, List.nil_append, List.singleton_append]
  rw [windowRev]
  simp

theorem unitsChunkAux_adjacent (size overlap sepLen : Nat) :
    ∀ (units cur : List (List Char)) (curLen : Nat),
      (∀ (i : Nat) (a b : List (List Char)),
        (unitsChunkAux size overlap sepLen units cur curLen).get? i = some a →
        (unitsChunkAux size overlap sepLen units cur curLen).get? (i + 1) = some b →
        overlapWindow overlap sepLen a <+: b)
      ∧ (∀ e, (unitsChunkAux size overlap sepLen units cur curLen).get? 0 = some e →
          cur <+: e)
  | [], cur, curLen => by
    rw [unitsChunkAux]
    constructor
    · intro i a b _ hb
      split at hb
      · simp at hb
      · rw [List.get?_eq_none.mpr (by simp)] at hb
        exact absurd hb (by simp)
    · intro e he
      split at he
      · simp at he
      · rcases i : he with _
        simp at he
        subst he
        exact List.prefix_refl _
  | u :: rest, cur, curLen => by
    rw [unitsChunkAux]
    split
    case isTrue hc =>
      have IH := unitsChunkAux_adjacent size overlap sepLen rest
        (overlapWindow overlap sepLen cur ++ [u])
        (((overlapWindow overlap sepLen cur).map (fun s => s.length + sepLen)).sum
          + (u.length + sepLen))
      constructor
      · intro i a b ha hb
        match i with
        | 0 =>
          simp only [List.get?_cons_zero] at ha
          cases ha
          simp only [List.get?_cons_succ] at hb
          have h2 := IH.2 b hb
          exact (List.prefix_append _ [u]).trans h2
        | j + 1 =>
          simp only [List.get?_cons_succ] at ha hb
          exact IH.1 j a b ha hb
      · intro e he
        simp only [List.get?_cons_zero] at he
        cases he
        exact List.prefix_refl _
    case isFalse hc =>
      have IH := unitsChunkAux_adjacent size overlap sepLen rest (cur ++ [u])
        (curLen + (u.length + sepLen))
      refine ⟨IH.1, ?_⟩
      intro e he
      exact (List.prefix_append cur [u]).trans (IH.2 e he)

theorem unitsChunkAux_mem (size overlap sepLen : Nat) :
    ∀ (units cur : List (List Char)) (curLen : Nat) (ch : List (List Char))
      (s : List Char),
      ch ∈ unitsChunkAux size overlap sepLen units cur curLen → s ∈ ch →
      s ∈ cur ∨ s ∈ units
  | [], cur, curLen, ch, s, hch, hs => by
    rw [unitsChunkAux] at hch
    split at hch
    · simp at hch
    · simp at hch
      subst hch
      exact Or.inl hs
  | u :: rest, cur, curLen, ch, s, hch, hs => by
    rw [unitsChunkAux] at hch
    split at hch
    case isTrue hc =>
      rcases List.mem_cons.mp hch with h | h
      · subst h
        exact Or.inl hs
      · rcases unitsChunkAux_mem size overlap sepLen rest _ _ ch s h hs with h2 | h2
        · rcases List.mem_append.mp h2 with h3 | h3
          · exact Or.inl (overlapWindow_mem overlap sepLen cur s h3)
          · simp at h3
            subst h3
            exact Or.inr (by simp)
        · exact Or.inr (List.mem_cons_of_mem _ h2)
    case isFalse hc =>
      rcases unitsChunkAux_mem size overlap sepLen rest _ _ ch s hch hs with h2 | h2
      · rcases List.mem_append.mp h2 with h3 | h3
        · exact Or.inl h3
        · simp at h3
          subst h3
          exact Or.inr (by simp)
      · exact Or.inr (List.mem_cons_of_mem _ h2)

/-- C8 (amended): in `chunk_by_sentences`, whenever a running chunk is closed,
the next chunk begins with the trailing window of the just-closed chunk's
sentences taken from the end backward until the accumulated length (sentence
length plus one separator each) reaches at least `chunk_overlap` — but the
window always contains at least one sentence: the loop adds a sentence before
testing the threshold, so for `chunk_overlap = 0` the window is exactly the
last sentence of the just-closed chunk, not the empty window.  No sentence is
ever split: every chunk is the space-join of whole sentences of the input. -/
theorem C8_sentence_overlap_window (c : TextChunker) (text : List Char) :
    (∀ (i : Nat) (a b : List (List Char)),
      (chunkSentenceUnits c text).get? i = some a →
      (chunkSentenceUnits c text).get? (i + 1) = some b →
      overlapWindow c.chunk_overlap 1 a <+: b)
    ∧ (∀ (us : List (List Char)) (u : List Char),
        c.chunk_overlap = 0 → overlapWindow c.chunk_overlap 1 (us ++ [u]) = [u])
    ∧ (∀ ch ∈ chunkSentenceUnits c text, ∀ s ∈ ch, s ∈ splitSentences text)
    ∧ chunk_by_sentences c text = (chunkSentenceUnits c text).map (joinSep [' ']) := by
  refine ⟨(unitsChunkAux_adjacent c.chunk_size c.chunk_overlap 1
    (splitSentences text) [] 0).1, ?_, ?_, rfl⟩
  · intro us u h0
    rw [h0]
    exact overlapWindow_zero 1 us u
  · intro ch hch s hs
    rcases unitsChunkAux_mem c.chunk_size c.chunk_overlap 1
      (splitSentences text) [] 0 ch s hch hs with h | h
    · simp at h
    · exact h

/-- C8 witness: on `"Hi there. Bye now. Go."` with size 10 and overlap 0,
chunk 1 begins with the overlap window of chunk 0. -/
theorem C8_witness :
    overlapWindow 0 1 ["Hi there.".toList] <+:
      ["Hi there.".toList, "Bye now.".toList] :=
  (C8_sentence_overlap_window ⟨10, 0⟩ "Hi there. Bye now. Go.".toList).1 0
    ["Hi there.".toList] ["Hi there.".toList, "Bye now.".toList]
    (by decide) (by decide)

/-- C8 counterexample: with `chunk_overlap = 0` the chunk opened after a close
still starts with the last sentence of the just-closed chunk (the overlap
loop inserts a sentence before checking the threshold), refuting the claim's
"empty window when chunk_overlap = 0". -/
theorem C8_counterexample :
    chunkSentenceUnits ⟨10, 0⟩ "Hi there. Bye now. Go.".toList =
      [["Hi there.".toList], ["Hi there.".toList, "Bye now.".toList],
       ["Bye now.".toList, "Go.".toList]]
    ∧ chunk_by_sentences ⟨10, 0⟩ "Hi there. Bye now. Go.".toList =
      ["Hi there.".toList, "Hi there. Bye now.".toList, "Bye now. Go.".toList]
    ∧ (chunkSentenceUnits ⟨10, 0⟩ "Hi there. Bye now. Go.".toList).get? 1 ≠
        some ["Bye now.".toList] :=
  ⟨by decide, by decide, by decide⟩

end ArticleExtractor

/-! # Theorems -/

namespace ArticleExtractor

theorem chunkCharsAux_get? (size step : Nat) (hstep : 1 ≤ step) :
    ∀ (fuel : Nat) (r : List Char) (_ : r.length ≤ fuel) (i : Nat),
      (chunkCharsAux size step fuel r).get? i =
        if i * step < r.length then some ((r.drop (i * step)).take size) else none
  | fuel, [], _, i => by
    cases fuel <;> simp [chunkCharsAux]
  | 0, a :: t, hf, i => by
    simp at hf
  | fuel + 1, a :: t, hf, i => by
    match i with
    | 0 =>
      simp [chunkCharsAux]
    | j + 1 =>
      have hlen : ((a :: t).drop step).length ≤ fuel := by
        simp only [List.length_drop, List.length_cons] at *
        omega
      have ih := chunkCharsAux_get? size step hstep fuel ((a :: t).drop step) hlen j
      have hdd : (((a :: t).drop step).drop (j * step)) = (a :: t).drop ((j + 1) * step) := by
        rw [List.drop_drop]
        congr 1
        ring
      have hmul : (j + 1) * step = j * step + step := by ring
      simp only [chunkCharsAux, List.get?_cons_succ, ih, hdd, List.length_drop,
        List.length_cons]
      by_cases hc : (j + 1) * step < t.length + 1
      · rw [if_pos, if_pos hc]
        omega
      · rw [if_neg, if_neg hc]
        omega

theorem chunk_by_characters_get? (size overlap : Nat) (h : overlap < size)
    (text : List Char) (i : Nat) :
    (chunk_by_characters ⟨size, overlap⟩ text).get? i =
      if i * (size - overlap) < text.length then
        some ((text.drop (i * (size - overlap))).take size)
      else none :=
  chunkCharsAux_get? size (size - overlap) (by omega) text.length text le_rfl i

/-- C1 (amended): for `chunk_overlap < chunk_size`, `chunk_by_characters` is
exactly the naive sliding window — chunk `i` is the substring of the input
starting at `i * (chunk_size - chunk_overlap)` of length
`min(chunk_size, remaining)` — every chunk has length at most `chunk_size`,
and the empty text yields the empty sequence.  However a chunk other than
the last may also be shorter than `chunk_size`; consecutive chunks satisfy
the weaker sharing law that chunk `i` without its first
`chunk_size - chunk_overlap` characters is a prefix of chunk `i + 1` (the
shared run has length `min(chunk_overlap, len(chunk i+1))`, not always
exactly `chunk_overlap`). -/
theorem C1_chunk_by_characters_window (size overlap : Nat) (text : List Char)
    (h : overlap < size) (cs : List (List Char))
    (hcs : cs = chunk_by_characters ⟨size, overlap⟩ text) :
    (∀ i, cs.get? i =
        if i * (size - overlap) < text.length then
          some ((text.drop (i * (size - overlap))).take size)
        else none)
    ∧ (∀ ch ∈ cs, ch.length ≤ size)
    ∧ (∀ i a b, cs.get? i = some a → cs.get? (i + 1) = some b →
        a.drop (size - overlap) <+: b)
    ∧ (text = [] → cs = []) := by
  subst hcs
  refine ⟨fun i => chunk_by_characters_get? size overlap h text i, ?_, ?_, ?_⟩
  · intro ch hch
    obtain ⟨i, hi⟩ := List.get?_of_mem hch
    have hc := chunk_by_characters_get? size overlap h text i
    rw [hi] at hc
    split at hc
    · cases hc
      exact le_trans (List.length_take_le _ _) le_rfl
    · exact absurd hc (by simp)
  · intro i a b ha hb
    rw [chunk_by_characters_get? size overlap h text i] at ha
    rw [chunk_by_characters_get? size overlap h text (i + 1)] at hb
    split at ha
    case isFalse => exact absurd ha (by simp)
    split at hb
    case isFalse => exact absurd hb (by simp)
    cases ha; cases hb
    set st := size - overlap with hst
    have h1 : ((text.drop (i * st)).take size).drop st =
        (text.drop ((i + 1) * st)).take (size - st) := by
      rw [List.drop_take]
      congr 1
      rw [List.drop_drop]
      congr 1
      ring
    rw [h1]
    have h2 : (text.drop ((i + 1) * st)).take (size - st) =
        ((text.drop ((i + 1) * st)).take size).take (size - st) := by
      rw [List.take_take, Nat.min_eq_left (by omega)]
    rw [h2]
    exact List.take_prefix _ _
  · intro h0
    subst h0
    rfl

/-- C1 witness: at `chunk_size = 3`, `chunk_overlap = 1` on `"abcde"`,
chunk 1 is the window starting at offset 2. -/
theorem C1_witness :
    (chunk_by_characters ⟨3, 1⟩ "abcde".toList).get? 1 = some "cde".toList := by
  have h := (C1_chunk_by_characters_window 3 1 "abcde".toList (by decide)
    (chunk_by_characters ⟨3, 1⟩ "abcde".toList) rfl).1 1
  exact h.trans (by decide)

/-- C1 counterexample: with `chunk_size = 3`, `chunk_overlap = 2` and text
`"abcd"`, chunk 2 (`"cd"`) is shorter than `chunk_size` yet is not the last
chunk, and its last 2 characters differ from chunk 3's first 2 characters —
refuting "only the last may be shorter" and the exact-overlap sharing. -/
theorem C1_counterexample :
    chunk_by_characters ⟨3, 2⟩ "abcd".toList =
      [['a', 'b', 'c'], ['b', 'c', 'd'], ['c', 'd'], ['d']]
    ∧ (chunk_by_characters ⟨3, 2⟩ "abcd".toList).get? 2 = some ['c', 'd']
    ∧ 2 + 1 < (chunk_by_characters ⟨3, 2⟩ "abcd".toList).length
    ∧ (['c', 'd'] : List Char).length < 3
    ∧ (['c', 'd'] : List Char).drop ((['c', 'd'] : List Char).length - 2) ≠
        (['d'] : List Char).take 2 := by
  refine ⟨by decide, by decide, by decide, by decide, by decide⟩

/-- C9: constructing a chunker with `chunk_overlap >= chunk_size` fails with
the configuration `ValueError`; with `chunk_overlap < chunk_size` it succeeds
with the given fields, and each chunking strategy maps the empty text to the
empty result rather than failing. -/
theorem C9_constructor_validation (size overlap : Nat) :
    (size ≤ overlap →
      mkTextChunker size overlap = .error "chunk_overlap must be less than chunk_size")
    ∧ (overlap < size →
        mkTextChunker size overlap = .ok ⟨size, overlap⟩
        ∧ chunk_by_characters ⟨size, overlap⟩ [] = []
        ∧ chunk_by_sentences ⟨size, overlap⟩ [] = []
        ∧ chunk_by_paragraphs ⟨size, overlap⟩ [] = []) := by
  constructor
  · intro h
    unfold mkTextChunker
    rw [if_pos (by omega)]
  · intro h
    refine ⟨?_, rfl, rfl, rfl⟩
    unfold mkTextChunker
    rw [if_neg (by omega)]

/-- C9 witness: `(100, 100)` and `(50, 200)` are rejected; `(1000, 200)` is
accepted and chunks the empty text to the empty list. -/
theorem C9_witness :
    mkTextChunker 100 100 = .error "chunk_overlap must be less than chunk_size"
    ∧ mkTextChunker 50 200 = .error "chunk_overlap must be less than chunk_size"
    ∧ mkTextChunker 1000 200 = .ok ⟨1000, 200⟩
    ∧ chunk_by_sentences ⟨1000, 200⟩ [] = [] :=
  ⟨(C9_constructor_validation 100 100).1 (by decide),
   (C9_constructor_validation 50 200).1 (by decide),
   ((C9_constructor_validation 1000 200).2 (by decide)).1,
   ((C9_constructor_validation 1000 200).2 (by decide)).2.2.1⟩

/-- C7: `get_chunks_by_token_limit` runs the selected strategy with the
derived `chunk_size` of `4 * max_tokens` characters (`int(max_tokens / 0.25)`)
and unchanged `chunk_overlap`, and returns the instance with its original
`chunk_size` restored, so a later `chunk_by_characters` call on the restored
instance equals one on the original.  The hypothesis marks the configurations
on which the Python character loop terminates (the spec requires callers to
keep `chunk_overlap` below the derived size). -/
theorem C7_token_limit_restores (c : TextChunker) (text t2 : List Char)
    (max_tokens : Nat) (method : String)
    (_h : method = "sentences" ∨ method = "paragraphs" ∨ c.chunk_overlap < 4 * max_tokens) :
    get_chunks_by_token_limit c text max_tokens method
      = (dispatchChunks ⟨4 * max_tokens, c.chunk_overlap⟩ method text, c)
    ∧ chunk_by_characters (get_chunks_by_token_limit c text max_tokens method).2 t2
      = chunk_by_characters c t2 :=
  ⟨rfl, rfl⟩

/-- C7 witness: `max_tokens = 1` derives a 4-character budget; the restored
instance is the original `⟨9, 2⟩`. -/
theorem C7_witness :
    get_chunks_by_token_limit ⟨9, 2⟩ "abcdefgh".toList 1 "characters"
      = (["abcd".toList, "cdef".toList, "efgh".toList, "gh".toList], ⟨9, 2⟩) := by
  have h := (C7_token_limit_restores ⟨9, 2⟩ "abcdefgh".toList [] 1 "characters"
    (Or.inr (Or.inr (by decide)))).1
  exact h.trans (by decide)


theorem retryAux_calls_pos (kws : List (List Char)) (wait maxR : Nat)
    (oracle : Nat → Except (List Char) (List Char)) (rem attempt : Nat)
    (h : 1 ≤ rem) : 1 ≤ (retryAux kws wait maxR oracle rem attempt).calls := by
  match rem, h with
  | r + 1, _ =>
    cases ho : oracle attempt with
    | ok s => simp [retryAux, ho]
    | error e =>
      simp only [retryAux, ho]
      split
      · exact le_refl 1
      · simp

theorem retryAux_retryable_step (kws : List (List Char)) (wait maxR : Nat)
    (oracle : Nat → Except (List Char) (List Char)) (rem attempt : Nat)
    (msg : List Char) (ho : oracle attempt = .error msg)
    (htr : isRetryableError kws msg = true) (hlast : attempt ≠ maxR - 1) :
    retryAux kws wait maxR oracle (rem + 1) attempt =
      ⟨(retryAux kws wait maxR oracle rem (attempt + 1)).result,
       (retryAux kws wait maxR oracle rem (attempt + 1)).calls + 1,
       wait * 2 ^ attempt :: (retryAux kws wait maxR oracle rem (attempt + 1)).sleeps⟩ := by
  simp only [retryAux, ho]
  rw [if_neg (by simp [htr, hlast])]

/-- C3 (amended): `_call_gpt_with_retry` classifies an error as retryable iff
its lowercased message contains one of `timeout`, `connection`, `rate`,
`429`, `500`, `503`, `502`, `temporarily`; `_call_gemini_with_retry` uses the
same list WITHOUT `temporarily`.  For both providers a non-retryable error
propagates on the first occurrence — exactly one provider call, no backoff
sleep — and `extract_structure` then returns `success = false` with `error`
equal to the original message; a retryable error (with attempts remaining)
leads to at least a second call after a first sleep of
`initial_wait_time * 2 ^ 0`. -/
theorem C3_error_classification (pt : Provider) (msg prompt : List Char)
    (oracle : Nat → Except (List Char) (List Char)) (wait maxR : Nat)
    (h0 : oracle 0 = .error msg) (hR : 2 ≤ maxR) :
    providerKeywords .gemini =
      ["timeout".toList, "connection".toList, "rate".toList, "429".toList,
       "500".toList, "503".toList, "502".toList]
    ∧ providerKeywords .gpt4o_mini =
      ["timeout".toList, "connection".toList, "rate".toList, "429".toList,
       "500".toList, "503".toList, "502".toList, "temporarily".toList]
    ∧ (isRetryableError (providerKeywords pt) msg = false →
        callWithRetry (providerKeywords pt) wait maxR oracle =
          ⟨.error msg, 1, []⟩
        ∧ extract_structure ⟨pt, maxR, wait⟩ (.ok prompt) oracle =
            (⟨false, none, none, some msg, maxR⟩, 1, []))
    ∧ (isRetryableError (providerKeywords pt) msg = true →
        2 ≤ (callWithRetry (providerKeywords pt) wait maxR oracle).calls
        ∧ (callWithRetry (providerKeywords pt) wait maxR oracle).sleeps.head?
            = some (wait * 2 ^ 0)) := by
  refine ⟨rfl, rfl, ?_, ?_⟩
  · intro hf
    match maxR, hR with
    | r + 2, _ =>
      have ht : callWithRetry (providerKeywords pt) wait (r + 2) oracle =
          ⟨.error msg, 1, []⟩ := by
        simp only [callWithRetry, retryAux, h0]
        rw [if_pos (Or.inl hf)]
      refine ⟨ht, ?_⟩
      simp [extract_structure, ht, failEnvelope]
  · intro htr
    match maxR, hR with
    | r + 2, _ =>
      rw [callWithRetry,
        retryAux_retryable_step (providerKeywords pt) wait (r + 2) oracle (r + 1) 0
          msg h0 htr (by omega)]
      refine ⟨?_, rfl⟩
      dsimp only
      have := retryAux_calls_pos (providerKeywords pt) wait (r + 2) oracle (r + 1) (0 + 1)
        (by omega)
      omega

/-- C3 witness: `"No API key configured"` is non-retryable for Gemini; the
loop makes one call, sleeps never, and the envelope reports the message. -/
theorem C3_witness :
    callWithRetry (providerKeywords .gemini) 1 3
        (fun _ => .error "No API key configured".toList)
      = ⟨.error "No API key configured".toList, 1, []⟩
    ∧ extract_structure ⟨.gemini, 3, 1⟩ (.ok [])
        (fun _ => .error "No API key configured".toList)
      = (⟨false, none, none, some "No API key configured".toList, 3⟩, 1, []) :=
  (C3_error_classification .gemini "No API key configured".toList []
    (fun _ => .error "No API key configured".toList) 1 3 rfl (by omega)).2.2.1
    (by decide)

/-- C3 counterexample: the message `"Temporarily unavailable"` contains the
claim's keyword `temporarily` (case-insensitively), yet Gemini's keyword list
lacks `temporarily`, so the Gemini retry loop re-raises after exactly one
call with no sleep even though a second attempt would have succeeded —
refuting the claim that both providers share the eight-keyword list. -/
theorem C3_counterexample :
    containsSub (pyLower "Temporarily unavailable".toList) "temporarily".toList = true
    ∧ isRetryableError (providerKeywords .gpt4o_mini)
        "Temporarily unavailable".toList = true
    ∧ isRetryableError (providerKeywords .gemini)
        "Temporarily unavailable".toList = false
    ∧ callWithRetry (providerKeywords .gemini) 1 3
        (fun n => if n = 0 then .error "Temporarily unavailable".toList
                  else .ok "{}".toList)
      = ⟨.error "Temporarily unavailable".toList, 1, []⟩ :=
  ⟨by decide, by decide, by decide, rfl⟩


/-- C4: the `extract_structure` envelope invariant: `success = true` iff
`error` is absent and `data` is present; on success `raw_response` is the
verbatim provider response and `retry_count = 0`; on any failure (prompt
rendering, provider call, or parsing) `data` and `raw_response` are absent,
`error` carries the exception message of the failing step, and
`retry_count` equals the configured `max_retries`. -/
theorem C4_envelope_invariant (p : AIProcessor)
    (render : Except (List Char) (List Char))
    (oracle : Nat → Except (List Char) (List Char)) (out : ExtractionResult)
    (hout : out = (extract_structure p render oracle).1) :
    (out.success = true ↔ out.error = none ∧ out.data.isSome = true)
    ∧ (out.success = true →
        out.retry_count = 0
        ∧ ∃ resp, out.raw_response = some resp
          ∧ (callWithRetry (providerKeywords p.model_type) p.initial_wait_time
              p.max_retries oracle).result = .ok resp)
    ∧ (out.success = false →
        out.data = none ∧ out.raw_response = none
        ∧ out.retry_count = p.max_retries
        ∧ ∃ e, out.error = some e
          ∧ (render = .error e
            ∨ (callWithRetry (providerKeywords p.model_type) p.initial_wait_time
                p.max_retries oracle).result = .error e
            ∨ ∃ resp, (callWithRetry (providerKeywords p.model_type)
                p.initial_wait_time p.max_retries oracle).result = .ok resp
                ∧ parseJsonResponse resp = .error e)) := by
  subst hout
  cases render with
  | error e =>
    simp [extract_structure, failEnvelope]
  | ok prompt =>
    cases hres : (callWithRetry (providerKeywords p.model_type) p.initial_wait_time
        p.max_retries oracle).result with
    | error e =>
      simp [extract_structure, hres, failEnvelope]
    | ok resp =>
      cases hp : parseJsonResponse resp with
      | error e2 =>
        simp [extract_structure, hres, hp, failEnvelope]
      | ok j =>
        simp [extract_structure, hres, hp]

/-- C4 witness: a permanent provider failure yields the failure envelope with
absent data/raw response and `retry_count = max_retries = 3`. -/
theorem C4_witness :
    (extract_structure ⟨.gemini, 3, 1⟩ (.ok [])
        (fun _ => .error "Invalid API key".toList)).1.data = none
    ∧ (extract_structure ⟨.gemini, 3, 1⟩ (.ok [])
        (fun _ => .error "Invalid API key".toList)).1.retry_count = 3 := by
  have h := C4_envelope_invariant ⟨.gemini, 3, 1⟩ (.ok [])
    (fun _ => .error "Invalid API key".toList) _ rfl
  have h2 := h.2.2 (by decide)
  exact ⟨h2.1, h2.2.2.1⟩

/-- C5: with `max_retries = 3` and `initial_wait_time = 1`, a provider that
fails twice with a message containing `"503"` and succeeds on the third
attempt makes exactly 3 calls with exactly two backoff sleeps of
`1 * 2 ^ 0 = 1` and `1 * 2 ^ 1 = 2` seconds, and `extract_structure` returns
the success envelope for the third response. -/
theorem C5_backoff_schedule (pt : Provider) (m resp prompt : List Char) (j : Json)
    (oracle : Nat → Except (List Char) (List Char))
    (h0 : oracle 0 = .error m) (h1 : oracle 1 = .error m) (h2 : oracle 2 = .ok resp)
    (hm : containsSub (pyLower m) "503".toList = true)
    (hp : parseJsonResponse resp = .ok j) :
    extract_structure ⟨pt, 3, 1⟩ (.ok prompt) oracle
      = (⟨true, some (if pyTruthy j then j else .obj []), some resp, none, 0⟩,
         3, [1, 2]) := by
  have hr : isRetryableError (providerKeywords pt) m = true := by
    rw [isRetryableError]
    apply List.any_eq_true.mpr
    exact ⟨"503".toList, by cases pt <;> decide, hm⟩
  have ht : callWithRetry (providerKeywords pt) 1 3 oracle = ⟨.ok resp, 3, [1, 2]⟩ := by
    rw [callWithRetry]
    rw [show (3 : Nat) = 2 + 1 from rfl]
    rw [retryAux_retryable_step (providerKeywords pt) 1 (2 + 1) oracle 2 0 m h0 hr
      (by omega)]
    rw [show (0 : Nat) + 1 = 1 from rfl, show (2 : Nat) = 1 + 1 from rfl]
    rw [retryAux_retryable_step (providerKeywords pt) 1 (1 + 1 + 1) oracle 1 1 m h1 hr
      (by omega)]
    rw [show (1 : Nat) + 1 = 2 from rfl]
    simp only [retryAux, h2]
    norm_num
  simp [extract_structure, ht, hp]

/-- C5 witness: a concrete oracle failing twice with
`"503 Service Unavailable"` then returning `{"title": "X"}` gives success
after 3 calls with sleeps `[1, 2]`. -/
theorem C5_witness :
    extract_structure ⟨.gpt4o_mini, 3, 1⟩ (.ok [])
        (fun n => if n < 2 then .error "503 Service Unavailable".toList
                  else .ok ['{', '"', 't', 'i', 't', 'l', 'e', '"', ':', ' ', '"', 'X', '"', '}'])
      = (⟨true, some (.obj [("title".toList, .str ['X'])]),
          some ['{', '"', 't', 'i', 't', 'l', 'e', '"', ':', ' ', '"', 'X', '"', '}'], none, 0⟩, 3, [1, 2]) := by
  have h := C5_backoff_schedule .gpt4o_mini "503 Service Unavailable".toList
    ['{', '"', 't', 'i', 't', 'l', 'e', '"', ':', ' ', '"', 'X', '"', '}'] [] (.obj [("title".toList, .str ['X'])])
    (fun n => if n < 2 then .error "503 Service Unavailable".toList
              else .ok ['{', '"', 't', 'i', 't', 'l', 'e', '"', ':', ' ', '"', 'X', '"', '}'])
    rfl rfl rfl (by decide) rfl
  exact h.trans rfl

/-- C10: whenever `extract_structure` succeeds, `data` is present: it is the
parsed JSON value of the raw response, except that a Python-falsy parse
result (e.g. JSON `null`) is replaced by the empty mapping via
`result or {}`. -/
theorem C10_success_data_present (p : AIProcessor)
    (render : Except (List Char) (List Char))
    (oracle : Nat → Except (List Char) (List Char))
    (hs : (extract_structure p render oracle).1.success = true) :
    ∃ resp j,
      (extract_structure p render oracle).1.raw_response = some resp
      ∧ parseJsonResponse resp = .ok j
      ∧ (extract_structure p render oracle).1.data
          = some (if pyTruthy j then j else Json.obj [])
      ∧ ((extract_structure p render oracle).1.data).isSome = true := by
  cases render with
  | error e =>
    rw [extract_structure] at hs
    exact absurd hs (by simp [failEnvelope])
  | ok prompt =>
    cases hres : (callWithRetry (providerKeywords p.model_type) p.initial_wait_time
        p.max_retries oracle).result with
    | error e =>
      rw [extract_structure] at hs
      simp [hres, failEnvelope] at hs
    | ok resp =>
      cases hp : parseJsonResponse resp with
      | error e2 =>
        rw [extract_structure] at hs
        simp [hres, hp, failEnvelope] at hs
      | ok j =>
        refine ⟨resp, j, ?_, hp, ?_, ?_⟩ <;>
          simp [extract_structure, hres, hp]

/-- C10 witness: a provider response of `"null"` parses to JSON null, which
is falsy, so `data` is the empty mapping — present even though the provider
returned no object. -/
theorem C10_witness :
    ∃ resp j,
      (extract_structure ⟨.gemini, 3, 1⟩ (.ok [])
          (fun _ => .ok "null".toList)).1.raw_response = some resp
      ∧ parseJsonResponse resp = .ok j
      ∧ (extract_structure ⟨.gemini, 3, 1⟩ (.ok [])
          (fun _ => .ok "null".toList)).1.data
          = some (if pyTruthy j then j else Json.obj [])
      ∧ ((extract_structure ⟨.gemini, 3, 1⟩ (.ok [])
          (fun _ => .ok "null".toList)).1.data).isSome = true :=
  C10_success_data_present ⟨.gemini, 3, 1⟩ (.ok []) (fun _ => .ok "null".toList)
    (by decide)


theorem dropWhile_append_all (p : Char → Bool) (w l : List Char)
    (hw : ∀ c ∈ w, p c = true) : (w ++ l).dropWhile p = l.dropWhile p := by
  induction w with
  | nil => rfl
  | cons c w ih =>
    rw [List.cons_append, List.dropWhile_cons, if_pos (hw c (by simp))]
    exact ih (fun c hc => hw c (by simp [hc]))

theorem dropWhile_cons_neg (p : Char → Bool) (c : Char) (l : List Char)
    (hc : p c = false) : (c :: l).dropWhile p = c :: l := by
  rw [List.dropWhile_cons, if_neg (by simp [hc])]

theorem strip_sandwich (p : Char → Bool) (w1 w2 mid : List Char) (a b : Char)
    (hw1 : ∀ c ∈ w1, p c = true) (hw2 : ∀ c ∈ w2, p c = true)
    (ha : p a = false) (hb : p b = false) :
    (((w1 ++ (a :: (mid ++ [b])) ++ w2).dropWhile p).reverse.dropWhile p).reverse
      = a :: (mid ++ [b]) := by
  rw [List.append_assoc, dropWhile_append_all p w1 _ hw1]
  rw [show (a :: (mid ++ [b])) ++ w2 = a :: (mid ++ [b] ++ w2) by simp]
  rw [dropWhile_cons_neg p a _ ha]
  rw [show a :: (mid ++ [b] ++ w2) = (a :: mid ++ [b]) ++ w2 by simp]
  rw [List.reverse_append, dropWhile_append_all p w2.reverse _ (by
    intro c hc
    exact hw2 c (List.mem_reverse.mp hc))]
  rw [show (a :: mid ++ [b]).reverse = b :: (mid.reverse ++ [a]) by simp]
  rw [dropWhile_cons_neg p b _ hb]
  simp

theorem pyStrip_sandwich (w1 w2 mid : List Char) (a b : Char)
    (hw1 : ∀ c ∈ w1, pyWs c = true) (hw2 : ∀ c ∈ w2, pyWs c = true)
    (ha : pyWs a = false) (hb : pyWs b = false) :
    pyStrip (w1 ++ (a :: (mid ++ [b])) ++ w2) = a :: (mid ++ [b]) :=
  strip_sandwich pyWs w1 w2 mid a b hw1 hw2 ha hb

theorem jsonStrip_sandwich (w1 w2 mid : List Char) (a b : Char)
    (hw1 : ∀ c ∈ w1, isJsonWs c = true) (hw2 : ∀ c ∈ w2, isJsonWs c = true)
    (ha : isJsonWs a = false) (hb : isJsonWs b = false) :
    jsonStrip (w1 ++ (a :: (mid ++ [b])) ++ w2) = a :: (mid ++ [b]) :=
  strip_sandwich isJsonWs w1 w2 mid a b hw1 hw2 ha hb

theorem pyStrip_core (mid : List Char) (a b : Char)
    (ha : pyWs a = false) (hb : pyWs b = false) :
    pyStrip (a :: (mid ++ [b])) = a :: (mid ++ [b]) := by
  have := pyStrip_sandwich [] [] mid a b (by simp) (by simp) ha hb
  simpa using this

theorem jsonStrip_decomp (l : List Char) :
    ∃ w1 w2, l = w1 ++ jsonStrip l ++ w2
      ∧ (∀ c ∈ w1, isJsonWs c = true) ∧ (∀ c ∈ w2, isJsonWs c = true) := by
  refine ⟨l.takeWhile isJsonWs, ((l.dropWhile isJsonWs).reverse.takeWhile isJsonWs).reverse,
    ?_, ?_, ?_⟩
  · have h2 : l.dropWhile isJsonWs
        = jsonStrip l ++ ((l.dropWhile isJsonWs).reverse.takeWhile isJsonWs).reverse := by
      rw [jsonStrip]
      conv_rhs => rw [← List.reverse_append, List.takeWhile_append_dropWhile,
        List.reverse_reverse]
    conv_lhs => rw [← List.takeWhile_append_dropWhile (p := isJsonWs) (l := l), h2]
    rw [List.append_assoc]
  · intro c hc
    exact List.mem_takeWhile_imp hc
  · intro c hc
    exact List.mem_takeWhile_imp (List.mem_reverse.mp hc)

theorem isJsonWs_pyWs (c : Char) (h : isJsonWs c = true) : pyWs c = true := by
  rw [isJsonWs] at h
  rw [pyWs]
  rcases Bool.or_eq_true_iff.mp h with h | h
  · rcases Bool.or_eq_true_iff.mp h with h | h
    · rcases Bool.or_eq_true_iff.mp h with h | h <;> simp [h]
    · simp [h]
  · simp [h]

theorem head?_decomp {l : List Char} {a : Char} (h : l.head? = some a) :
    ∃ t, l = a :: t := by
  cases l with
  | nil => simp at h
  | cons x t =>
    simp at h
    exact ⟨t, by rw [h]⟩

theorem skipWs_decomp (l : List Char) :
    ∃ w, l = w ++ skipWs l ∧ ∀ c ∈ w, isJsonWs c = true :=
  ⟨l.takeWhile isJsonWs, (List.takeWhile_append_dropWhile _ _).symm,
    fun _ hc => List.mem_takeWhile_imp hc⟩

theorem parseStringBody_consume :
    ∀ (l s r : List Char), parseStringBody l = some (s, r) → ∃ pre, l = pre ++ r
  | [], s, r, h => by
    rw [parseStringBody.eq_def] at h
    simp at h
  | c :: rest, s, r, h => by
    rw [parseStringBody.eq_def] at h
    simp only at h
    by_cases h1 : c = '"'
    · rw [if_pos h1] at h
      simp only [Option.some.injEq, Prod.mk.injEq] at h
      exact ⟨[c], by rw [h.2]; rfl⟩
    · rw [if_neg h1] at h
      by_cases h2 : c = '\\'
      · rw [if_pos h2] at h
        match rest, h with
        | e :: rest2, h => ?_
        rw [Option.bind_eq_some] at h
        obtain ⟨d, hd, h⟩ := h
        rw [Option.map_eq_some'] at h
        obtain ⟨⟨s2, r2⟩, hsb, h⟩ := h
        obtain ⟨pre, hpre⟩ := parseStringBody_consume rest2 s2 r2 hsb
        cases h
        exact ⟨c :: e :: pre, by rw [hpre]; rfl⟩
      · rw [if_neg h2] at h
        split at h
        · simp at h
        · rw [Option.map_eq_some'] at h
          obtain ⟨⟨s2, r2⟩, hsb, h⟩ := h
          obtain ⟨pre, hpre⟩ := parseStringBody_consume rest s2 r2 hsb
          cases h
          exact ⟨c :: pre, by rw [hpre]; rfl⟩

theorem parseNatTok_consume (l : List Char) (n : Nat) (r : List Char)
    (h : parseNatTok l = some (n, r)) : ∃ pre, l = pre ++ r := by
  rw [parseNatTok] at h
  split at h
  · simp at h
  · split at h
    · simp at h
    · simp only [Option.some.injEq, Prod.mk.injEq] at h
      exact ⟨l.takeWhile isDigitC, by
        rw [← h.2]
        exact (List.takeWhile_append_dropWhile _ _).symm⟩

theorem parseNumTok_consume (l : List Char) (v : Json) (r : List Char)
    (h : parseNumTok l = some (v, r)) : ∃ pre, l = pre ++ r := by
  rw [parseNumTok] at h
  split at h
  case isTrue hm =>
    obtain ⟨t, ht⟩ := head?_decomp hm
    rw [Option.map_eq_some'] at h
    obtain ⟨⟨n2, r2⟩, hn, h⟩ := h
    cases h
    subst ht
    obtain ⟨pre, hpre⟩ := parseNatTok_consume _ n2 r2 hn
    simp only [List.tail_cons] at hpre
    exact ⟨'-' :: pre, by rw [hpre]; rfl⟩
  case isFalse hm =>
    rw [Option.map_eq_some'] at h
    obtain ⟨⟨n2, r2⟩, hn, h⟩ := h
    cases h
    exact parseNatTok_consume l n2 r2 hn

theorem parseNumTok_shape (l : List Char) (v : Json) (r : List Char)
    (h : parseNumTok l = some (v, r)) : ∃ n, v = .num n := by
  rw [parseNumTok] at h
  split at h <;>
  · rw [Option.map_eq_some'] at h
    obtain ⟨⟨n2, r2⟩, hn, h⟩ := h
    cases h
    exact ⟨_, rfl⟩

theorem skipWs_suffix (l : List Char) : skipWs l <:+ l :=
  List.dropWhile_suffix _

theorem parseStringBody_suffix :
    ∀ (l s r : List Char), parseStringBody l = some (s, r) → r <:+ l := by
  intro l s r h
  obtain ⟨pre, hpre⟩ := parseStringBody_consume l s r h
  exact ⟨pre, hpre.symm⟩

theorem parseNumTok_suffix (l : List Char) (v : Json) (r : List Char)
    (h : parseNumTok l = some (v, r)) : r <:+ l := by
  obtain ⟨pre, hpre⟩ := parseNumTok_consume l v r h
  exact ⟨pre, hpre.symm⟩

theorem parseF_mems_shape :
    ∀ (fuel : Nat) (acc : List (List Char × Json)) (l : List Char) (v : Json)
      (r : List Char), parseF fuel (.mems acc) l = some (v, r) → ∃ ms, v = .obj ms
  | 0, acc, l, v, r, h => by
    rw [parseF] at h
    exact absurd h (by simp)
  | fuel + 1, acc, l, v, r, h => by
    rw [parseF] at h
    split at h
    · rw [Option.bind_eq_some] at h
      obtain ⟨kr, hk, h⟩ := h
      split at h
      · rw [Option.bind_eq_some] at h
        obtain ⟨vr, hv, h⟩ := h
        split at h
        · exact parseF_mems_shape fuel _ _ v r h
        · split at h
          · simp only [Option.some.injEq, Prod.mk.injEq] at h
            exact ⟨_, h.1.symm⟩
          · simp at h
      · simp at h
    · simp at h

theorem parseF_elems_shape :
    ∀ (fuel : Nat) (acc : List Json) (l : List Char) (v : Json) (r : List Char),
      parseF fuel (.elems acc) l = some (v, r) → ∃ xs, v = .arr xs
  | 0, acc, l, v, r, h => by
    rw [parseF] at h
    exact absurd h (by simp)
  | fuel + 1, acc, l, v, r, h => by
    rw [parseF] at h
    rw [Option.bind_eq_some] at h
    obtain ⟨vr, hv, h⟩ := h
    split at h
    · exact parseF_elems_shape fuel _ _ v r h
    · split at h
      · simp only [Option.some.injEq, Prod.mk.injEq] at h
        exact ⟨_, h.1.symm⟩
      · simp at h

theorem parseF_suffix :
    ∀ (fuel : Nat) (mode : PMode) (l : List Char) (v : Json) (r : List Char),
      parseF fuel mode l = some (v, r) → r <:+ l
  | 0, mode, l, v, r, h => by
    rw [parseF] at h
    exact absurd h (by simp)
  | fuel + 1, .val, l, v, r, h => by
    have hsw : skipWs l <:+ l := skipWs_suffix l
    have hswt : (skipWs (skipWs l).tail) <:+ l :=
      ((skipWs_suffix _).trans (List.tail_suffix _)).trans hsw
    rw [parseF] at h
    split at h
    · split at h
      · simp only [Option.some.injEq, Prod.mk.injEq] at h
        rw [← h.2]
        exact (List.tail_suffix _).trans hswt
      · exact (parseF_suffix fuel _ _ v r h).trans hswt
    split at h
    · split at h
      · simp only [Option.some.injEq, Prod.mk.injEq] at h
        rw [← h.2]
        exact (List.tail_suffix _).trans hswt
      · exact (parseF_suffix fuel _ _ v r h).trans hswt
    split at h
    · rw [Option.map_eq_some'] at h
      obtain ⟨⟨s2, r2⟩, hsb, h⟩ := h
      simp only [Prod.mk.injEq] at h
      rw [← h.2]
      exact ((parseStringBody_suffix _ s2 r2 hsb).trans (List.tail_suffix _)).trans hsw
    split at h
    · simp only [Option.some.injEq, Prod.mk.injEq] at h
      rw [← h.2]
      exact (List.drop_suffix _ _).trans hsw
    split at h
    · simp only [Option.some.injEq, Prod.mk.injEq] at h
      rw [← h.2]
      exact (List.drop_suffix _ _).trans hsw
    split at h
    · simp only [Option.some.injEq, Prod.mk.injEq] at h
      rw [← h.2]
      exact (List.drop_suffix _ _).trans hsw
    · exact (parseNumTok_suffix _ v r h).trans hsw
  | fuel + 1, .mems acc, l, v, r, h => by
    have hsw : skipWs l <:+ l := skipWs_suffix l
    rw [parseF] at h
    split at h
    · rw [Option.bind_eq_some] at h
      obtain ⟨⟨k, r1⟩, hk, h⟩ := h
      have hr1 : r1 <:+ l :=
        ((parseStringBody_suffix _ k r1 hk).trans (List.tail_suffix _)).trans hsw
      split at h
      · rw [Option.bind_eq_some] at h
        obtain ⟨⟨v0, r3⟩, hv, h⟩ := h
        have hr3 : r3 <:+ l :=
          (((parseF_suffix fuel .val _ v0 r3 hv).trans (List.tail_suffix _)).trans
            (skipWs_suffix r1)).trans hr1
        split at h
        · exact ((parseF_suffix fuel _ _ v r h).trans
            ((List.tail_suffix _).trans (skipWs_suffix r3))).trans hr3
        · split at h
          · simp only [Option.some.injEq, Prod.mk.injEq] at h
            rw [← h.2]
            exact ((List.tail_suffix _).trans (skipWs_suffix r3)).trans hr3
          · simp at h
      · simp at h
    · simp at h
  | fuel + 1, .elems acc, l, v, r, h => by
    rw [parseF] at h
    rw [Option.bind_eq_some] at h
    obtain ⟨⟨v0, r0⟩, hv, h⟩ := h
    have hr0 : r0 <:+ l := parseF_suffix fuel .val l v0 r0 hv
    split at h
    · exact ((parseF_suffix fuel _ _ v r h).trans
        ((List.tail_suffix _).trans (skipWs_suffix r0))).trans hr0
    · split at h
      · simp only [Option.some.injEq, Prod.mk.injEq] at h
        rw [← h.2]
        exact ((List.tail_suffix _).trans (skipWs_suffix r0)).trans hr0
      · simp at h

theorem parseF_mems_end :
    ∀ (fuel : Nat) (acc : List (List Char × Json)) (l : List Char) (v : Json)
      (r : List Char), parseF fuel (.mems acc) l = some (v, r) → '}' :: r <:+ l
  | 0, acc, l, v, r, h => by
    rw [parseF] at h
    exact absurd h (by simp)
  | fuel + 1, acc, l, v, r, h => by
    have hsw : skipWs l <:+ l := skipWs_suffix l
    rw [parseF] at h
    split at h
    · rw [Option.bind_eq_some] at h
      obtain ⟨⟨k, r1⟩, hk, h⟩ := h
      have hr1 : r1 <:+ l :=
        ((parseStringBody_suffix _ k r1 hk).trans (List.tail_suffix _)).trans hsw
      split at h
      · rw [Option.bind_eq_some] at h
        obtain ⟨⟨v0, r3⟩, hv, h⟩ := h
        have hr3 : r3 <:+ l :=
          (((parseF_suffix fuel .val _ v0 r3 hv).trans (List.tail_suffix _)).trans
            (skipWs_suffix r1)).trans hr1
        split at h
        · exact ((parseF_mems_end fuel _ _ v r h).trans
            ((List.tail_suffix _).trans (skipWs_suffix r3))).trans hr3
        · split at h
          case isTrue hc3 =>
            obtain ⟨t3, ht3⟩ := head?_decomp hc3
            simp only [Option.some.injEq, Prod.mk.injEq] at h
            rw [← h.2, ht3]
            simp only [List.tail_cons]
            have : ('}' :: t3 : List Char) <:+ r3 := ht3 ▸ skipWs_suffix r3
            exact this.trans hr3
          case isFalse => simp at h
      · simp at h
    · simp at h

theorem parseF_val_obj_end (fuel : Nat) (l : List Char) (m : List (List Char × Json))
    (r : List Char) (h : parseF fuel .val l = some (.obj m, r)) : '}' :: r <:+ l := by
  match fuel with
  | 0 =>
    rw [parseF] at h
    exact absurd h (by simp)
  | fuel + 1 =>
    have hsw : skipWs l <:+ l := skipWs_suffix l
    have hswt : (skipWs (skipWs l).tail) <:+ l :=
      ((skipWs_suffix _).trans (List.tail_suffix _)).trans hsw
    rw [parseF] at h
    split at h
    · split at h
      case isTrue hc2 =>
        obtain ⟨t2, ht2⟩ := head?_decomp hc2
        simp only [Option.some.injEq, Prod.mk.injEq] at h
        rw [← h.2, ht2]
        simp only [List.tail_cons]
        have : ('}' :: t2 : List Char) <:+ (skipWs l).tail := ht2 ▸ skipWs_suffix _
        exact this.trans ((List.tail_suffix _).trans hsw)
      case isFalse =>
        exact (parseF_mems_end fuel _ _ _ r h).trans hswt
    split at h
    · split at h
      · simp at h
      · obtain ⟨xs, hxs⟩ := parseF_elems_shape fuel _ _ _ r h
        simp at hxs
    split at h
    · rw [Option.map_eq_some'] at h
      obtain ⟨⟨s2, r2⟩, hsb, h⟩ := h
      simp at h
    split at h
    · simp at h
    split at h
    · simp at h
    split at h
    · simp at h
    · obtain ⟨n, hn⟩ := parseNumTok_shape _ _ r h
      simp at hn

theorem parseF_val_obj_start (fuel : Nat) (l : List Char) (m : List (List Char × Json))
    (r : List Char) (h : parseF fuel .val l = some (.obj m, r)) :
    ∃ w t, l = w ++ '{' :: t ∧ ∀ c ∈ w, isJsonWs c = true := by
  match fuel with
  | 0 =>
    rw [parseF] at h
    exact absurd h (by simp)
  | fuel + 1 =>
    rw [parseF] at h
    split at h
    case isTrue hc =>
      obtain ⟨t, ht⟩ := head?_decomp hc
      obtain ⟨w0, hw0, hws⟩ := skipWs_decomp l
      exact ⟨w0, t, by rw [hw0, ht], hws⟩
    case isFalse =>
    split at h
    · split at h
      · simp at h
      · obtain ⟨xs, hxs⟩ := parseF_elems_shape fuel _ _ _ r h
        simp at hxs
    split at h
    · rw [Option.map_eq_some'] at h
      obtain ⟨⟨s2, r2⟩, hsb, h⟩ := h
      simp at h
    split at h
    · simp at h
    split at h
    · simp at h
    split at h
    · simp at h
    · obtain ⟨n, hn⟩ := parseNumTok_shape _ _ r h
      simp at hn

theorem jsonParse_obj_core (s : List Char) (m : List (List Char × Json))
    (hs : jsonParse s = some (.obj m)) :
    parseF (2 * (jsonStrip s).length + 2) .val (jsonStrip s) = some (.obj m, []) := by
  simp only [jsonParse] at hs
  cases hp : parseF (2 * (jsonStrip s).length + 2) .val (jsonStrip s) with
  | none => rw [hp] at hs; simp at hs
  | some vr =>
    obtain ⟨v, r⟩ := vr
    rw [hp] at hs
    simp only at hs
    split at hs
    case isTrue hr =>
      simp only [Option.some.injEq] at hs
      subst hs
      subst hr
      rfl
    case isFalse => simp at hs

theorem jsonParse_obj_decomp (s : List Char) (m : List (List Char × Json))
    (hs : jsonParse s = some (.obj m)) :
    ∃ w1 mid w2, s = w1 ++ ('{' :: (mid ++ ['}'])) ++ w2
      ∧ (∀ c ∈ w1, isJsonWs c = true) ∧ (∀ c ∈ w2, isJsonWs c = true) := by
  have hcore := jsonParse_obj_core s m hs
  obtain ⟨W1, W2, hdec, hW1, hW2⟩ := jsonStrip_decomp s
  obtain ⟨w, t, hwt, hw⟩ := parseF_val_obj_start _ _ _ _ hcore
  obtain ⟨pre, hpre⟩ := parseF_val_obj_end _ _ _ _ hcore
  have hlast : (jsonStrip s).getLast? = some '}' := by
    rw [← hpre]
    exact List.getLast?_concat _
  rw [hwt, List.getLast?_append] at hlast
  have hbt : ∃ y, ('{' :: t).getLast? = some y :=
    ⟨('{' :: t).getLast (by simp), List.getLast?_eq_getLast _ (by simp)⟩
  obtain ⟨y, hy⟩ := hbt
  rw [hy] at hlast
  simp only [Option.or_some, Option.some.injEq] at hlast
  subst hlast
  match t, hy with
  | [], hy => simp at hy
  | x :: t2, hy =>
    rw [List.getLast?_cons_cons] at hy
    have hne : (x :: t2 : List Char) ≠ [] := by simp
    have hgl : (x :: t2).getLast hne = '}' := by
      rw [List.getLast?_eq_getLast _ hne] at hy
      simpa using hy
    refine ⟨W1 ++ w, (x :: t2).dropLast, W2, ?_, ?_, hW2⟩
    · rw [hdec, hwt]
      rw [← hgl, List.dropLast_append_getLast hne]
      simp
    · intro c hc
      rcases List.mem_append.mp hc with hc | hc
      · exact hW1 c hc
      · exact hw c hc

theorem fenceJson_not_prefix_brace (X : List Char) : ¬ fenceJson <+: ('{' :: X) := by
  rintro ⟨t, ht⟩
  simp [fenceJson] at ht

theorem fence_not_prefix_brace (X : List Char) : ¬ fence <+: ('{' :: X) := by
  rintro ⟨t, ht⟩
  simp [fence] at ht

theorem fence_not_prefix_nl (X : List Char) : ¬ fence <+: ('\n' :: X) := by
  rintro ⟨t, ht⟩
  simp [fence] at ht

theorem fenceJson_not_prefix_fence_nl (X : List Char) :
    ¬ fenceJson <+: ('`' :: '`' :: '`' :: '\n' :: X) := by
  rintro ⟨t, ht⟩
  simp [fenceJson] at ht

theorem fence_not_suffix_brace (mid : List Char) :
    ¬ fence <:+ ('{' :: (mid ++ ['}'])) := by
  rintro ⟨t, ht⟩
  have h1 := congrArg List.getLast? ht
  rw [List.getLast?_append] at h1
  simp [fence] at h1
  rw [show ('{' :: (mid ++ ['}']) : List Char) = ('{' :: mid) ++ ['}'] by simp] at h1
  rw [List.getLast?_concat] at h1
  simp at h1

theorem stripFence1_core (mid : List Char) :
    stripFence1 ('{' :: (mid ++ ['}'])) = '{' :: (mid ++ ['}']) := by
  rw [stripFence1, if_neg]
  rw [List.isPrefixOf_iff_prefix]
  exact fenceJson_not_prefix_brace _

theorem stripFence2_core (mid : List Char) :
    stripFence2 ('{' :: (mid ++ ['}'])) = '{' :: (mid ++ ['}']) := by
  rw [stripFence2, if_neg]
  rw [List.isPrefixOf_iff_prefix]
  exact fence_not_prefix_brace _

theorem stripFence2_nl (X : List Char) : stripFence2 ('\n' :: X) = '\n' :: X := by
  rw [stripFence2, if_neg]
  rw [List.isPrefixOf_iff_prefix]
  exact fence_not_prefix_nl _

theorem stripFence3_core (mid : List Char) :
    stripFence3 ('{' :: (mid ++ ['}'])) = '{' :: (mid ++ ['}']) := by
  rw [stripFence3, if_neg]
  rw [List.isSuffixOf_iff_suffix]
  exact fence_not_suffix_brace _

theorem stripFence3_fenced (X : List Char) :
    stripFence3 (X ++ fence) = X := by
  rw [stripFence3, if_pos]
  · rw [show (X ++ fence).length - 3 = X.length by simp [fence]]
    exact List.take_left _ _
  · rw [List.isSuffixOf_iff_suffix]
    exact List.suffix_append _ _

theorem jsonParse_of_core (core : List Char) (v : Json)
    (h : parseF (2 * core.length + 2) .val core = some (v, []))
    (hstrip : jsonStrip core = core) :
    jsonParse core = some v := by
  simp only [jsonParse, hstrip, h]
  simp

theorem parseJsonResponse_of (l : List Char) (v : Json)
    (h : jsonParse (cleanResponse l) = some v) : parseJsonResponse l = .ok v := by
  simp only [parseJsonResponse, h]

theorem cleanResponse_core (s mid w1 w2 : List Char)
    (hdec : s = w1 ++ ('{' :: (mid ++ ['}'])) ++ w2)
    (hw1 : ∀ c ∈ w1, isJsonWs c = true) (hw2 : ∀ c ∈ w2, isJsonWs c = true) :
    cleanResponse s = '{' :: (mid ++ ['}']) := by
  have hps : pyStrip s = '{' :: (mid ++ ['}']) := by
    rw [hdec]
    exact pyStrip_sandwich w1 w2 mid '{' '}'
      (fun c hc => isJsonWs_pyWs c (hw1 c hc))
      (fun c hc => isJsonWs_pyWs c (hw2 c hc)) (by decide) (by decide)
  rw [cleanResponse, hps, stripFence1_core, stripFence2_core, stripFence3_core]
  exact pyStrip_core mid '{' '}' (by decide) (by decide)

theorem pyStrip_nl_sandwich (s mid w1 w2 : List Char)
    (hdec : s = w1 ++ ('{' :: (mid ++ ['}'])) ++ w2)
    (hw1 : ∀ c ∈ w1, isJsonWs c = true) (hw2 : ∀ c ∈ w2, isJsonWs c = true) :
    pyStrip (('\n' :: s) ++ ['\n']) = '{' :: (mid ++ ['}']) := by
  rw [show (('\n' :: s) ++ ['\n'] : List Char)
      = ('\n' :: w1) ++ ('{' :: (mid ++ ['}'])) ++ (w2 ++ ['\n']) by rw [hdec]; simp]
  refine pyStrip_sandwich _ _ _ _ _ ?_ ?_ (by decide) (by decide)
  · intro c hc
    rcases List.mem_cons.mp hc with hc | hc
    · subst hc; decide
    · exact isJsonWs_pyWs c (hw1 c hc)
  · intro c hc
    rcases List.mem_append.mp hc with hc | hc
    · exact isJsonWs_pyWs c (hw2 c hc)
    · simp at hc
      subst hc
      decide

theorem cleanResponse_wrapJson (s mid w1 w2 : List Char)
    (hdec : s = w1 ++ ('{' :: (mid ++ ['}'])) ++ w2)
    (hw1 : ∀ c ∈ w1, isJsonWs c = true) (hw2 : ∀ c ∈ w2, isJsonWs c = true) :
    cleanResponse (wrapJsonFence s) = '{' :: (mid ++ ['}']) := by
  have h1 : pyStrip (wrapJsonFence s) = wrapJsonFence s := by
    rw [show wrapJsonFence s = '`' :: (("``json\n".toList ++ (s ++ "\n``".toList)) ++ ['`']) by
      simp [wrapJsonFence]]
    rw [pyStrip_core _ '`' '`' (by decide) (by decide)]
  have h2 : stripFence1 (wrapJsonFence s) = '\n' :: ((('\n' :: s).tail ++ ['\n']) ++ fence) := by
    rw [stripFence1, if_pos]
    · rw [show wrapJsonFence s = fenceJson ++ ('\n' :: ((('\n' :: s).tail ++ ['\n']) ++ fence)) by
        simp [wrapJsonFence, fenceJson, fence]]
      rw [show (7 : Nat) = fenceJson.length from rfl, List.drop_left]
    · rw [List.isPrefixOf_iff_prefix]
      rw [show wrapJsonFence s = fenceJson ++ ('\n' :: ((('\n' :: s).tail ++ ['\n']) ++ fence)) by
        simp [wrapJsonFence, fenceJson, fence]]
      exact List.prefix_append _ _
  rw [cleanResponse, h1, h2, stripFence2_nl]
  rw [show ('\n' :: ((('\n' :: s).tail ++ ['\n']) ++ fence) : List Char)
      = (('\n' :: s) ++ ['\n']) ++ fence by simp]
  rw [stripFence3_fenced]
  exact pyStrip_nl_sandwich s mid w1 w2 hdec hw1 hw2

theorem cleanResponse_wrapBare (s mid w1 w2 : List Char)
    (hdec : s = w1 ++ ('{' :: (mid ++ ['}'])) ++ w2)
    (hw1 : ∀ c ∈ w1, isJsonWs c = true) (hw2 : ∀ c ∈ w2, isJsonWs c = true) :
    cleanResponse (wrapBareFence s) = '{' :: (mid ++ ['}']) := by
  have h1 : pyStrip (wrapBareFence s) = wrapBareFence s := by
    rw [show wrapBareFence s = '`' :: (("``\n".toList ++ (s ++ "\n``".toList)) ++ ['`']) by
      simp [wrapBareFence]]
    rw [pyStrip_core _ '`' '`' (by decide) (by decide)]
  have h2 : stripFence1 (wrapBareFence s) = wrapBareFence s := by
    rw [stripFence1, if_neg]
    rw [List.isPrefixOf_iff_prefix]
    rw [show wrapBareFence s = '`' :: '`' :: '`' :: '\n' :: (s ++ "\n```".toList) by
      simp [wrapBareFence]]
    exact fenceJson_not_prefix_fence_nl _
  have h3 : stripFence2 (wrapBareFence s) = '\n' :: ((('\n' :: s).tail ++ ['\n']) ++ fence) := by
    rw [stripFence2, if_pos]
    · rw [show wrapBareFence s = fence ++ ('\n' :: ((('\n' :: s).tail ++ ['\n']) ++ fence)) by
        simp [wrapBareFence, fence]]
      rw [show (3 : Nat) = (fence : List Char).length from rfl, List.drop_left]
    · rw [List.isPrefixOf_iff_prefix]
      rw [show wrapBareFence s = fence ++ ('\n' :: ((('\n' :: s).tail ++ ['\n']) ++ fence)) by
        simp [wrapBareFence, fence]]
      exact List.prefix_append _ _
  rw [cleanResponse, h1, h2, h3]
  rw [show ('\n' :: ((('\n' :: s).tail ++ ['\n']) ++ fence) : List Char)
      = (('\n' :: s) ++ ['\n']) ++ fence by simp]
  rw [stripFence3_fenced]
  exact pyStrip_nl_sandwich s mid w1 w2 hdec hw1 hw2

theorem escDecode_wf (e d : Char) (h : escDecode e = some d) : wfChar d = true := by
  rw [escDecode] at h
  split at h
  · cases h; decide
  · split at h
    · cases h; decide
    · split at h
      · cases h; decide
      · split at h
        · cases h; decide
        · split at h
          · cases h; decide
          · split at h
            · cases h; decide
            · simp at h

theorem parseStringBody_wf :
    ∀ (l s r : List Char), parseStringBody l = some (s, r) → ∀ c ∈ s, wfChar c = true
  | [], s, r, h => by
    rw [parseStringBody.eq_def] at h
    simp at h
  | c0 :: rest, s, r, h => by
    rw [parseStringBody.eq_def] at h
    simp only at h
    by_cases h1 : c0 = '"'
    · rw [if_pos h1] at h
      simp only [Option.some.injEq, Prod.mk.injEq] at h
      rw [← h.1]
      intro c hc
      simp at hc
    · rw [if_neg h1] at h
      by_cases h2 : c0 = '\\'
      · rw [if_pos h2] at h
        match rest, h with
        | e :: rest2, h => ?_
        rw [Option.bind_eq_some] at h
        obtain ⟨d, hd, h⟩ := h
        rw [Option.map_eq_some'] at h
        obtain ⟨⟨s2, r2⟩, hsb, h⟩ := h
        simp only [Prod.mk.injEq] at h
        rw [← h.1]
        intro c hc
        rcases List.mem_cons.mp hc with hc | hc
        · subst hc
          exact escDecode_wf e c hd
        · exact parseStringBody_wf rest2 s2 r2 hsb c hc
      · rw [if_neg h2] at h
        split at h
        · simp at h
        · rw [Option.map_eq_some'] at h
          obtain ⟨⟨s2, r2⟩, hsb, h⟩ := h
          simp only [Prod.mk.injEq] at h
          rw [← h.1]
          intro c hc
          rcases List.mem_cons.mp hc with hc | hc
          · subst hc
            rw [wfChar]
            simp only [Bool.or_eq_true, decide_eq_true_eq]
            left
            omega
          · exact parseStringBody_wf rest s2 r2 hsb c hc

theorem parseF_wf :
    ∀ (fuel : Nat) (mode : PMode) (l : List Char) (v : Json) (r : List Char),
      parseF fuel mode l = some (v, r) →
      (match mode with
       | .val => True
       | .mems acc => ∀ kv ∈ acc, (∀ c ∈ kv.1, wfChar c = true) ∧ WfJ kv.2
       | .elems acc => ∀ x ∈ acc, WfJ x) →
      WfJ v
  | 0, mode, l, v, r, h, _ => by
    rw [parseF] at h
    exact absurd h (by simp)
  | fuel + 1, .val, l, v, r, h, _ => by
    rw [parseF] at h
    split at h
    · split at h
      · simp only [Option.some.injEq, Prod.mk.injEq] at h
        rw [← h.1]
        exact WfJ.obj [] (by simp) (by simp)
      · exact parseF_wf fuel _ _ v r h (by simp)
    split at h
    · split at h
      · simp only [Option.some.injEq, Prod.mk.injEq] at h
        rw [← h.1]
        exact WfJ.arr [] (by simp)
      · exact parseF_wf fuel _ _ v r h (by simp)
    split at h
    · rw [Option.map_eq_some'] at h
      obtain ⟨⟨s2, r2⟩, hsb, h⟩ := h
      simp only [Prod.mk.injEq] at h
      rw [← h.1]
      exact WfJ.str s2 (parseStringBody_wf _ s2 r2 hsb)
    split at h
    · simp only [Option.some.injEq, Prod.mk.injEq] at h
      rw [← h.1]
      exact WfJ.bool true
    split at h
    · simp only [Option.some.injEq, Prod.mk.injEq] at h
      rw [← h.1]
      exact WfJ.bool false
    split at h
    · simp only [Option.some.injEq, Prod.mk.injEq] at h
      rw [← h.1]
      exact WfJ.null
    · obtain ⟨n, hn⟩ := parseNumTok_shape _ v r h
      rw [hn]
      exact WfJ.num n
  | fuel + 1, .mems acc, l, v, r, h, hacc => by
    rw [parseF] at h
    split at h
    · rw [Option.bind_eq_some] at h
      obtain ⟨⟨k, r1⟩, hk, h⟩ := h
      split at h
      · rw [Option.bind_eq_some] at h
        obtain ⟨⟨v0, r3⟩, hv, h⟩ := h
        have hkwf : ∀ c ∈ k, wfChar c = true := parseStringBody_wf _ k r1 hk
        have hv0wf : WfJ v0 := parseF_wf fuel .val _ v0 r3 hv trivial
        have hacc2 : ∀ kv ∈ acc ++ [(k, v0)],
            (∀ c ∈ kv.1, wfChar c = true) ∧ WfJ kv.2 := by
          intro kv hkv
          rcases List.mem_append.mp hkv with hkv | hkv
          · exact hacc kv hkv
          · simp at hkv
            subst hkv
            exact ⟨hkwf, hv0wf⟩
        split at h
        · exact parseF_wf fuel _ _ v r h hacc2
        · split at h
          · simp only [Option.some.injEq, Prod.mk.injEq] at h
            rw [← h.1]
            exact WfJ.obj _ (fun kv hkv => (hacc2 kv hkv).1) (fun kv hkv => (hacc2 kv hkv).2)
          · simp at h
      · simp at h
    · simp at h
  | fuel + 1, .elems acc, l, v, r, h, hacc => by
    rw [parseF] at h
    rw [Option.bind_eq_some] at h
    obtain ⟨⟨v0, r0⟩, hv, h⟩ := h
    have hv0wf : WfJ v0 := parseF_wf fuel .val _ v0 r0 hv trivial
    have hacc2 : ∀ x ∈ acc ++ [v0], WfJ x := by
      intro x hx
      rcases List.mem_append.mp hx with hx | hx
      · exact hacc x hx
      · simp at hx
        subst hx
        exact hv0wf
    split at h
    · exact parseF_wf fuel _ _ v r h hacc2
    · split at h
      · simp only [Option.some.injEq, Prod.mk.injEq] at h
        rw [← h.1]
        exact WfJ.arr _ hacc2
      · simp at h

theorem jsonParse_wf (l : List Char) (v : Json) (h : jsonParse l = some v) :
    WfJ v := by
  simp only [jsonParse] at h
  cases hp : parseF (2 * (jsonStrip l).length + 2) .val (jsonStrip l) with
  | none => rw [hp] at h; simp at h
  | some vr =>
    obtain ⟨v0, r0⟩ := vr
    rw [hp] at h
    simp only at h
    split at h
    · simp only [Option.some.injEq] at h
      rw [← h]
      exact parseF_wf _ .val _ v0 r0 hp trivial
    · simp at h

theorem digitVal_ofNat (m : Nat) (hm : m < 10) :
    digitVal (Char.ofNat (48 + m)) = m := by
  interval_cases m <;> decide

theorem isDigitC_ofNat (m : Nat) (hm : m < 10) :
    isDigitC (Char.ofNat (48 + m)) = true := by
  interval_cases m <;> decide

theorem natDigitsFuel_ne_nil :
    ∀ (f n : Nat), n < f → natDigitsFuel f n ≠ []
  | f + 1, n, _ => by
    rw [natDigitsFuel]
    split
    · simp
    · simp

theorem natDigitsFuel_digits :
    ∀ (f n : Nat), n < f → ∀ c ∈ natDigitsFuel f n, isDigitC c = true
  | f + 1, n, hf => by
    rw [natDigitsFuel]
    split
    case isTrue h10 =>
      intro c hc
      simp at hc
      subst hc
      exact isDigitC_ofNat n h10
    case isFalse h10 =>
      intro c hc
      rcases List.mem_append.mp hc with hc | hc
      · have hlt : n / 10 < f := by
          have := Nat.div_lt_self (by omega : 0 < n) (by norm_num : 1 < 10)
          omega
        exact natDigitsFuel_digits f (n / 10) hlt c hc
      · simp at hc
        subst hc
        exact isDigitC_ofNat (n % 10) (Nat.mod_lt _ (by norm_num))

theorem digitsVal_append (ds : List Char) (d : Char) :
    digitsVal (ds ++ [d]) = digitsVal ds * 10 + digitVal d := by
  rw [digitsVal, digitsVal, List.foldl_append]
  rfl

theorem natDigitsFuel_val :
    ∀ (f n : Nat), n < f → digitsVal (natDigitsFuel f n) = n
  | f + 1, n, hf => by
    rw [natDigitsFuel]
    split
    case isTrue h10 =>
      rw [digitsVal]
      simp only [List.foldl_cons, List.foldl_nil]
      rw [show (0 * 10 + digitVal (Char.ofNat (48 + n))) = digitVal (Char.ofNat (48 + n)) by
        omega]
      exact digitVal_ofNat n h10
    case isFalse h10 =>
      have hlt : n / 10 < f := by
        have := Nat.div_lt_self (by omega : 0 < n) (by norm_num : 1 < 10)
        omega
      rw [digitsVal_append, natDigitsFuel_val f (n / 10) hlt,
        digitVal_ofNat (n % 10) (Nat.mod_lt _ (by norm_num))]
      omega

theorem natDigitsFuel_head :
    ∀ (f n : Nat), n < f → 1 ≤ n → (natDigitsFuel f n).head? ≠ some '0'
  | f + 1, n, hf, hn => by
    rw [natDigitsFuel]
    split
    case isTrue h10 =>
      simp only [List.head?_cons, ne_eq, Option.some.injEq]
      intro hc
      have : (Char.ofNat (48 + n)).toNat = 48 := by rw [hc]; decide
      have h2 : (Char.ofNat (48 + n)).toNat = 48 + n := by
        interval_cases n <;> decide
      omega
    case isFalse h10 =>
      have hlt : n / 10 < f := by
        have := Nat.div_lt_self (by omega : 0 < n) (by norm_num : 1 < 10)
        omega
      have hne := natDigitsFuel_ne_nil f (n / 10) hlt
      rw [List.head?_append_of_ne_nil _ hne]
      exact natDigitsFuel_head f (n / 10) hlt (by omega)

theorem natChars_ne_nil (n : Nat) : natChars n ≠ [] :=
  natDigitsFuel_ne_nil (n + 1) n (by omega)

theorem natChars_digits (n : Nat) : ∀ c ∈ natChars n, isDigitC c = true :=
  natDigitsFuel_digits (n + 1) n (by omega)

theorem natChars_val (n : Nat) : digitsVal (natChars n) = n :=
  natDigitsFuel_val (n + 1) n (by omega)

theorem natChars_not_zero_head (n : Nat) (h : 1 < (natChars n).length) :
    (natChars n).head? ≠ some '0' := by
  by_cases h10 : n < 10
  · exfalso
    rw [natChars, natDigitsFuel, if_pos h10] at h
    simp at h
  · exact natDigitsFuel_head (n + 1) n (by omega) (by omega)

theorem takeWhile_split (p : Char → Bool) (ds rest : List Char)
    (hds : ∀ c ∈ ds, p c = true)
    (hrest : ∀ c, rest.head? = some c → p c = false) :
    (ds ++ rest).takeWhile p = ds ∧ (ds ++ rest).dropWhile p = rest := by
  induction ds with
  | nil =>
    simp only [List.nil_append]
    cases rest with
    | nil => simp
    | cons c t =>
      have := hrest c (by simp)
      constructor
      · rw [List.takeWhile_cons, if_neg (by simp [this])]
      · rw [List.dropWhile_cons, if_neg (by simp [this])]
  | cons d ds ih =>
    have hd := hds d (by simp)
    obtain ⟨ih1, ih2⟩ := ih (fun c hc => hds c (by simp [hc]))
    constructor
    · rw [List.cons_append, List.takeWhile_cons, if_pos (by simp [hd]), ih1]
    · rw [List.cons_append, List.dropWhile_cons, if_pos (by simp [hd]), ih2]

theorem parseNatTok_natChars (n : Nat) (rest : List Char)
    (hrest : ∀ c, rest.head? = some c → isDigitC c = false) :
    parseNatTok (natChars n ++ rest) = some (n, rest) := by
  obtain ⟨h1, h2⟩ := takeWhile_split isDigitC (natChars n) rest (natChars_digits n) hrest
  rw [parseNatTok]
  simp only [h1, h2]
  rw [if_neg (by simp [natChars_ne_nil n])]
  rw [if_neg (by
    rintro ⟨hl, hh⟩
    exact natChars_not_zero_head n hl hh)]
  rw [natChars_val]

theorem isDigitC_ne_minus (c : Char) (h : isDigitC c = true) : c ≠ '-' := by
  intro hc
  subst hc
  simp [isDigitC] at h

theorem parseNumTok_intChars (k : Int) (rest : List Char)
    (hrest : ∀ c, rest.head? = some c → isDigitC c = false) :
    parseNumTok (intChars k ++ rest) = some (.num k, rest) := by
  rw [intChars]
  split
  case isTrue hneg =>
    rw [parseNumTok]
    rw [if_pos (by simp)]
    simp only [List.cons_append, List.tail_cons]
    rw [parseNatTok_natChars k.natAbs rest hrest]
    simp only [Option.map_some']
    rw [show (-(k.natAbs : Int)) = k by omega]
  case isFalse hneg =>
    rw [parseNumTok]
    rw [if_neg (by
      cases hnc : natChars k.toNat with
      | nil => exact absurd hnc (natChars_ne_nil _)
      | cons d t =>
        simp only [hnc, List.cons_append, List.head?_cons, Option.some.injEq]
        intro hd
        have := natChars_digits k.toNat d (by simp [hnc])
        exact isDigitC_ne_minus d this hd)]
    rw [parseNatTok_natChars k.toNat rest hrest]
    simp only [Option.map_some']
    rw [show ((k.toNat : Int)) = k by omega]

theorem parseStringBody_escape (c e : Char) (X : List Char)
    (he : escDecode e = some c) :
    parseStringBody ('\\' :: e :: X) = (parseStringBody X).map fun sr => (c :: sr.1, sr.2) := by
  rw [parseStringBody.eq_def]
  simp only
  rw [if_neg (by decide), if_pos (by decide), he]
  rfl

theorem parseStringBody_enc (s : List Char) (rest : List Char)
    (hwf : ∀ c ∈ s, wfChar c = true) :
    parseStringBody ((s.map escapeChar).flatten ++ '"' :: rest) = some (s, rest) := by
  induction s with
  | nil =>
    rw [parseStringBody.eq_def]
    simp
  | cons c s ih =>
    have ihs := ih (fun x hx => hwf x (by simp [hx]))
    simp only [List.map_cons, List.flatten_cons, List.append_assoc]
    by_cases h1 : c = '"'
    · subst h1
      rw [show escapeChar '"' = ['\\', '"'] from rfl]
      rw [show ((['\\', '"'] : List Char) ++ ((s.map escapeChar).flatten ++ '"' :: rest))
          = '\\' :: '"' :: ((s.map escapeChar).flatten ++ '"' :: rest) from rfl]
      rw [parseStringBody_escape '"' '"' _ (by decide), ihs]
      rfl
    by_cases h2 : c = '\\'
    · subst h2
      rw [show escapeChar '\\' = ['\\', '\\'] from rfl]
      rw [show ((['\\', '\\'] : List Char) ++ ((s.map escapeChar).flatten ++ '"' :: rest))
          = '\\' :: '\\' :: ((s.map escapeChar).flatten ++ '"' :: rest) from rfl]
      rw [parseStringBody_escape '\\' '\\' _ (by decide), ihs]
      rfl
    by_cases h3 : c = '\n'
    · subst h3
      rw [show escapeChar '\n' = ['\\', 'n'] from rfl]
      rw [show ((['\\', 'n'] : List Char) ++ ((s.map escapeChar).flatten ++ '"' :: rest))
          = '\\' :: 'n' :: ((s.map escapeChar).flatten ++ '"' :: rest) from rfl]
      rw [parseStringBody_escape '\n' 'n' _ (by decide), ihs]
      rfl
    by_cases h4 : c = '\t'
    · subst h4
      rw [show escapeChar '\t' = ['\\', 't'] from rfl]
      rw [show ((['\\', 't'] : List Char) ++ ((s.map escapeChar).flatten ++ '"' :: rest))
          = '\\' :: 't' :: ((s.map escapeChar).flatten ++ '"' :: rest) from rfl]
      rw [parseStringBody_escape '\t' 't' _ (by decide), ihs]
      rfl
    by_cases h5 : c = '\r'
    · subst h5
      rw [show escapeChar '\r' = ['\\', 'r'] from rfl]
      rw [show ((['\\', 'r'] : List Char) ++ ((s.map escapeChar).flatten ++ '"' :: rest))
          = '\\' :: 'r' :: ((s.map escapeChar).flatten ++ '"' :: rest) from rfl]
      rw [parseStringBody_escape '\r' 'r' _ (by decide), ihs]
      rfl
    · have hge : 32 ≤ c.toNat := by
        have := hwf c (by simp)
        rw [wfChar] at this
        simp only [Bool.or_eq_true, decide_eq_true_eq] at this
        rcases this with ((h | h) | h) | h
        · exact h
        · exact absurd h h3
        · exact absurd h h4
        · exact absurd h h5
      rw [show escapeChar c = [c] by
        rw [escapeChar, if_neg h1, if_neg h2, if_neg h3, if_neg h4, if_neg h5]]
      rw [show (([c] : List Char) ++ ((s.map escapeChar).flatten ++ '"' :: rest))
          = c :: ((s.map escapeChar).flatten ++ '"' :: rest) from rfl]
      rw [parseStringBody.eq_def]
      simp only
      rw [if_neg h1, if_neg h2, if_neg (by omega), ihs]
      rfl

theorem skipWs_cons_pos (c : Char) (l : List Char) (hc : isJsonWs c = true) :
    skipWs (c :: l) = skipWs l := by
  rw [skipWs, skipWs, List.dropWhile_cons, if_pos (by simp [hc])]

theorem skipWs_cons_neg (c : Char) (l : List Char) (hc : isJsonWs c = false) :
    skipWs (c :: l) = c :: l := by
  rw [skipWs, List.dropWhile_cons, if_neg (by simp [hc])]

theorem skipWs_indent (k : Nat) (l : List Char) :
    skipWs (indentChars k ++ l) = skipWs l := by
  rw [skipWs, skipWs, indentChars]
  exact dropWhile_append_all _ _ _ (by
    intro c hc
    rw [List.eq_of_mem_replicate hc]
    decide)

theorem parseF_val_skips (fuel : Nat) (c : Char) (l : List Char)
    (hc : isJsonWs c = true) :
    parseF fuel .val (c :: l) = parseF fuel .val l := by
  cases fuel with
  | zero => rfl
  | succ f =>
    rw [parseF, parseF, skipWs_cons_pos c l hc]

theorem parseF_val_indent (fuel k : Nat) (l : List Char) :
    parseF fuel .val (indentChars k ++ l) = parseF fuel .val l := by
  cases fuel with
  | zero => rfl
  | succ f =>
    rw [parseF, parseF, skipWs_indent k l]

theorem parseF_mems_skips (fuel : Nat) (c : Char) (acc : List (List Char × Json))
    (l : List Char) (hc : isJsonWs c = true) :
    parseF fuel (.mems acc) (c :: l) = parseF fuel (.mems acc) l := by
  cases fuel with
  | zero => rfl
  | succ f =>
    rw [parseF, parseF, skipWs_cons_pos c l hc]

theorem not_prefix_of_head_ne (a b : Char) (as X : List Char) (h : a ≠ b) :
    ¬ ((a :: as).isPrefixOf (b :: X) = true) := by
  rw [List.isPrefixOf_iff_prefix]
  rintro ⟨t, ht⟩
  simp only [List.cons_append, List.cons.injEq] at ht
  exact h ht.1

theorem restOk_not_digit (rest : List Char) (h : restOk rest) :
    ∀ c, rest.head? = some c → isDigitC c = false := by
  intro c hc
  rcases h with h | ⟨c2, t, ht, hc2⟩
  · subst h
    simp at hc
  · subst ht
    simp only [List.head?_cons, Option.some.injEq] at hc
    subst hc
    rcases hc2 with h | h <;> subst h <;> decide

theorem dropWhile_idem (p : Char → Bool) (l : List Char) :
    (l.dropWhile p).dropWhile p = l.dropWhile p := by
  induction l with
  | nil => rfl
  | cons c t ih =>
    rw [List.dropWhile_cons]
    split
    · exact ih
    case isFalse h => rw [List.dropWhile_cons, if_neg h]

theorem skipWs_idem (l : List Char) : skipWs (skipWs l) = skipWs l :=
  dropWhile_idem isJsonWs l

theorem parseF_mems_skipWs_eq (fuel : Nat) (acc : List (List Char × Json))
    (X : List Char) :
    parseF fuel (.mems acc) (skipWs X) = parseF fuel (.mems acc) X := by
  cases fuel with
  | zero => rfl
  | succ f => rw [parseF, parseF, skipWs_idem]

theorem sizeJ_pos : ∀ v : Json, 1 ≤ sizeJ v := by
  intro v
  cases v <;> simp [sizeJ]

theorem digitish_facts (d : Char) (h : isDigitC d = true ∨ d = '-') :
    d ≠ '{' ∧ d ≠ '[' ∧ d ≠ '"' ∧ d ≠ 't' ∧ d ≠ 'f' ∧ d ≠ 'n'
      ∧ d ≠ ']' ∧ d ≠ '}' ∧ isJsonWs d = false := by
  rcases h with h | h
  · have h48 : 48 ≤ d.toNat ∧ d.toNat ≤ 57 := by
      rw [isDigitC] at h
      simp only [Bool.and_eq_true, decide_eq_true_eq] at h
      exact h
    obtain ⟨hlo, hhi⟩ := h48
    refine ⟨?_, ?_, ?_, ?_, ?_, ?_, ?_, ?_, ?_⟩
    · intro he; subst he; revert hhi; decide
    · intro he; subst he; revert hhi; decide
    · intro he; subst he; revert hlo; decide
    · intro he; subst he; revert hhi; decide
    · intro he; subst he; revert hhi; decide
    · intro he; subst he; revert hhi; decide
    · intro he; subst he; revert hhi; decide
    · intro he; subst he; revert hhi; decide
    · have h1 : d ≠ ' ' := by intro he; subst he; revert hlo; decide
      have h2 : d ≠ '\t' := by intro he; subst he; revert hlo; decide
      have h3 : d ≠ '\n' := by intro he; subst he; revert hlo; decide
      have h4 : d ≠ '\r' := by intro he; subst he; revert hlo; decide
      rw [isJsonWs]
      simp [h1, h2, h3, h4]
  · subst h
    refine ⟨by decide, by decide, by decide, by decide, by decide, by decide,
      by decide, by decide, by decide⟩

theorem intChars_head (k : Int) :
    ∃ d ds, intChars k = d :: ds ∧ (isDigitC d = true ∨ d = '-') := by
  rw [intChars]
  split
  · exact ⟨'-', natChars k.natAbs, rfl, Or.inr rfl⟩
  · cases hnc : natChars k.toNat with
    | nil => exact absurd hnc (natChars_ne_nil _)
    | cons d ds =>
      exact ⟨d, ds, rfl, Or.inl (natChars_digits k.toNat d (by simp [hnc]))⟩

theorem parseF_pretty_num (k : Int) (lvl : Nat) (rest : List Char) (fuel : Nat)
    (hf : 1 ≤ fuel) (hrest : restOk rest) :
    parseF fuel .val (prettyJ (.num k) lvl ++ rest) = some (.num k, rest) := by
  match fuel, hf with
  | f + 1, _ =>
    have hpj : prettyJ (.num k) lvl = intChars k := by simp [prettyJ]
    obtain ⟨d, ds, hdk, hd⟩ := intChars_head k
    obtain ⟨hne1, hne2, hne3, hne4, hne5, hne6, _, _, hnws⟩ := digitish_facts d hd
    rw [parseF, hpj, hdk]
    simp only [List.cons_append]
    rw [skipWs_cons_neg d _ hnws]
    rw [if_neg (by simp [hne1]), if_neg (by simp [hne2]), if_neg (by simp [hne3])]
    rw [if_neg (by
      rw [show ("true".toList : List Char) = 't' :: ['r', 'u', 'e'] from rfl]
      exact not_prefix_of_head_ne 't' d _ _ (fun he => hne4 he.symm))]
    rw [if_neg (by
      rw [show ("false".toList : List Char) = 'f' :: ['a', 'l', 's', 'e'] from rfl]
      exact not_prefix_of_head_ne 'f' d _ _ (fun he => hne5 he.symm))]
    rw [if_neg (by
      rw [show ("null".toList : List Char) = 'n' :: ['u', 'l', 'l'] from rfl]
      exact not_prefix_of_head_ne 'n' d _ _ (fun he => hne6 he.symm))]
    rw [show (d :: (ds ++ rest) : List Char) = intChars k ++ rest by rw [hdk]; rfl]
    exact parseNumTok_intChars k rest (restOk_not_digit rest hrest)

theorem parseF_pretty_null (lvl : Nat) (rest : List Char) (fuel : Nat)
    (hf : 1 ≤ fuel) :
    parseF fuel .val (prettyJ .null lvl ++ rest) = some (.null, rest) := by
  match fuel, hf with
  | f + 1, _ =>
    have hpj : prettyJ .null lvl = ['n', 'u', 'l', 'l'] := by simp [prettyJ]
    rw [parseF, hpj]
    simp only [List.cons_append, List.nil_append]
    rw [skipWs_cons_neg 'n' _ (by decide)]
    rw [if_neg (by simp), if_neg (by simp), if_neg (by simp)]
    rw [if_neg (by
      rw [show ("true".toList : List Char) = 't' :: ['r', 'u', 'e'] from rfl]
      exact not_prefix_of_head_ne 't' 'n' _ _ (by decide))]
    rw [if_neg (by
      rw [show ("false".toList : List Char) = 'f' :: ['a', 'l', 's', 'e'] from rfl]
      exact not_prefix_of_head_ne 'f' 'n' _ _ (by decide))]
    rw [if_pos (by
      rw [show ("null".toList : List Char) = ['n', 'u', 'l', 'l'] from rfl]
      rw [List.isPrefixOf_iff_prefix]
      exact List.prefix_append ['n', 'u', 'l', 'l'] rest)]
    rfl

theorem parseF_pretty_bool (b : Bool) (lvl : Nat) (rest : List Char) (fuel : Nat)
    (hf : 1 ≤ fuel) :
    parseF fuel .val (prettyJ (.bool b) lvl ++ rest) = some (.bool b, rest) := by
  match fuel, hf with
  | f + 1, _ =>
    cases b with
    | true =>
      have hpj : prettyJ (.bool true) lvl = ['t', 'r', 'u', 'e'] := by
        simp [prettyJ]
      rw [parseF, hpj]
      simp only [List.cons_append, List.nil_append]
      rw [skipWs_cons_neg 't' _ (by decide)]
      rw [if_neg (by simp), if_neg (by simp), if_neg (by simp)]
      rw [if_pos (by
        rw [show ("true".toList : List Char) = ['t', 'r', 'u', 'e'] from rfl]
        rw [List.isPrefixOf_iff_prefix]
        exact List.prefix_append ['t', 'r', 'u', 'e'] rest)]
      rfl
    | false =>
      have hpj : prettyJ (.bool false) lvl = ['f', 'a', 'l', 's', 'e'] := by
        simp [prettyJ]
      rw [parseF, hpj]
      simp only [List.cons_append, List.nil_append]
      rw [skipWs_cons_neg 'f' _ (by decide)]
      rw [if_neg (by simp), if_neg (by simp), if_neg (by simp)]
      rw [if_neg (by
        rw [show ("true".toList : List Char) = 't' :: ['r', 'u', 'e'] from rfl]
        exact not_prefix_of_head_ne 't' 'f' _ _ (by decide))]
      rw [if_pos (by
        rw [show ("false".toList : List Char) = ['f', 'a', 'l', 's', 'e'] from rfl]
        rw [List.isPrefixOf_iff_prefix]
        exact List.prefix_append ['f', 'a', 'l', 's', 'e'] rest)]
      rfl

theorem parseF_pretty_str (s : List Char) (lvl : Nat) (rest : List Char) (fuel : Nat)
    (hf : 1 ≤ fuel) (hwf : ∀ c ∈ s, wfChar c = true) :
    parseF fuel .val (prettyJ (.str s) lvl ++ rest) = some (.str s, rest) := by
  match fuel, hf with
  | f + 1, _ =>
    have hpj : prettyJ (.str s) lvl = '"' :: ((s.map escapeChar).flatten ++ ['"']) := by
      simp [prettyJ, encStr]
    rw [parseF, hpj]
    simp only [List.cons_append]
    rw [skipWs_cons_neg '"' _ (by decide)]
    rw [if_neg (by simp), if_neg (by simp), if_pos (by simp)]
    simp only [List.tail_cons]
    rw [show ((s.map escapeChar).flatten ++ ['"'] ++ rest)
        = (s.map escapeChar).flatten ++ '"' :: rest by simp]
    rw [parseStringBody_enc s rest hwf]
    rfl

theorem parseF_pretty_obj_nil (lvl : Nat) (rest : List Char) (fuel : Nat)
    (hf : 1 ≤ fuel) :
    parseF fuel .val (prettyJ (.obj []) lvl ++ rest) = some (.obj [], rest) := by
  match fuel, hf with
  | f + 1, _ =>
    have hpj : prettyJ (.obj []) lvl = ['{', '}'] := by simp [prettyJ]
    rw [parseF, hpj]
    simp only [List.cons_append, List.nil_append]
    rw [skipWs_cons_neg '{' _ (by decide)]
    simp only [List.tail_cons]
    rw [skipWs_cons_neg '}' _ (by decide)]
    rw [if_pos (by simp)]
    rw [if_pos (by simp)]
    rfl

theorem parseF_pretty_arr_nil (lvl : Nat) (rest : List Char) (fuel : Nat)
    (hf : 1 ≤ fuel) :
    parseF fuel .val (prettyJ (.arr []) lvl ++ rest) = some (.arr [], rest) := by
  match fuel, hf with
  | f + 1, _ =>
    have hpj : prettyJ (.arr []) lvl = ['[', ']'] := by simp [prettyJ]
    rw [parseF, hpj]
    simp only [List.cons_append, List.nil_append]
    rw [skipWs_cons_neg '[' _ (by decide)]
    simp only [List.tail_cons]
    rw [skipWs_cons_neg ']' _ (by decide)]
    rw [if_neg (by simp)]
    rw [if_pos (by simp)]
    rw [if_pos (by simp)]
    rfl

theorem prettyMems_cons_shape (m : List Char × Json)
    (ms : List (List Char × Json)) (lvl : Nat) :
    ∃ tl, prettyMems (m :: ms) lvl = indentChars lvl ++ ('"' :: tl) := by
  obtain ⟨k, v⟩ := m
  cases ms with
  | nil =>
    refine ⟨(k.map escapeChar).flatten ++ ('"' :: (':' :: (' ' :: prettyJ v lvl))), ?_⟩
    simp [prettyMems, encStr]
  | cons m2 ms2 =>
    refine ⟨(k.map escapeChar).flatten
      ++ ('"' :: (':' :: (' ' :: (prettyJ v lvl
        ++ (',' :: ('\n' :: prettyMems (m2 :: ms2) lvl)))))), ?_⟩
    simp [prettyMems, encStr]

theorem prettyElems_cons_shape (x : Json) (xs : List Json) (lvl : Nat) :
    ∃ tl, prettyElems (x :: xs) lvl = indentChars lvl ++ (prettyJ x lvl ++ tl) := by
  cases xs with
  | nil =>
    refine ⟨[], ?_⟩
    simp [prettyElems]
  | cons y ys =>
    refine ⟨',' :: ('\n' :: prettyElems (y :: ys) lvl), ?_⟩
    simp [prettyElems]

theorem prettyJ_head (v : Json) (lvl : Nat) :
    ∃ d tl, prettyJ v lvl = d :: tl ∧ isJsonWs d = false ∧ d ≠ ']' ∧ d ≠ '}' := by
  cases v with
  | null =>
    exact ⟨'n', ['u', 'l', 'l'], by simp [prettyJ], by decide, by decide, by decide⟩
  | bool b =>
    cases b with
    | true =>
      exact ⟨'t', ['r', 'u', 'e'], by simp [prettyJ], by decide, by decide, by decide⟩
    | false =>
      exact ⟨'f', ['a', 'l', 's', 'e'], by simp [prettyJ], by decide, by decide, by decide⟩
  | num k =>
    obtain ⟨d, ds, hdk, hd⟩ := intChars_head k
    obtain ⟨_, _, _, _, _, _, h7, h8, h9⟩ := digitish_facts d hd
    exact ⟨d, ds, by rw [show prettyJ (.num k) lvl = intChars k by simp [prettyJ], hdk],
      h9, h7, h8⟩
  | str s =>
    refine ⟨'"', (s.map escapeChar).flatten ++ ['"'], ?_, by decide, by decide, by decide⟩
    simp [prettyJ, encStr]
  | arr xs =>
    cases xs with
    | nil =>
      exact ⟨'[', [']'], by simp [prettyJ], by decide, by decide, by decide⟩
    | cons x xs2 =>
      refine ⟨'[', '\n' :: prettyElems (x :: xs2) (lvl + 1)
        ++ '\n' :: indentChars lvl ++ [']'], ?_, by decide, by decide, by decide⟩
      simp [prettyJ]
  | obj ms =>
    cases ms with
    | nil =>
      exact ⟨'{', ['}'], by simp [prettyJ], by decide, by decide, by decide⟩
    | cons m ms2 =>
      refine ⟨'{', '\n' :: prettyMems (m :: ms2) (lvl + 1)
        ++ '\n' :: indentChars lvl ++ ['}'], ?_, by decide, by decide, by decide⟩
      simp [prettyJ]

theorem parseF_val_skipWs_eq (fuel : Nat) (X : List Char) :
    parseF fuel .val (skipWs X) = parseF fuel .val X := by
  cases fuel with
  | zero => rfl
  | succ f => rw [parseF, parseF, skipWs_idem]

theorem parseF_elems_skipWs_eq (fuel : Nat) (acc : List Json) (X : List Char) :
    parseF fuel (.elems acc) (skipWs X) = parseF fuel (.elems acc) X := by
  cases fuel with
  | zero => rfl
  | succ f => rw [parseF, parseF, parseF_val_skipWs_eq]

theorem parseF_elems_skips (fuel : Nat) (c : Char) (acc : List Json)
    (l : List Char) (hc : isJsonWs c = true) :
    parseF fuel (.elems acc) (c :: l) = parseF fuel (.elems acc) l := by
  cases fuel with
  | zero => rfl
  | succ f => rw [parseF, parseF, parseF_val_skips f c l hc]

theorem parse_pretty_main : ∀ n : Nat,
    (∀ (v : Json) (lvl : Nat) (rest : List Char) (fuel : Nat),
        sizeJ v ≤ n → WfJ v → restOk rest → sizeJ v ≤ fuel →
        parseF fuel .val (prettyJ v lvl ++ rest) = some (v, rest)) ∧
    (∀ (ms : List (List Char × Json)) (acc : List (List Char × Json))
        (lvl lvl2 : Nat) (rest : List Char) (fuel : Nat),
        ms ≠ [] → sizeM ms ≤ n →
        (∀ kv ∈ ms, ∀ c ∈ kv.1, wfChar c) → (∀ kv ∈ ms, WfJ kv.2) →
        sizeM ms ≤ fuel →
        parseF fuel (.mems acc)
            (prettyMems ms lvl ++ '\n' :: (indentChars lvl2 ++ '}' :: rest))
          = some (.obj (acc ++ ms), rest)) ∧
    (∀ (xs : List Json) (acc : List Json) (lvl lvl2 : Nat) (rest : List Char)
        (fuel : Nat),
        xs ≠ [] → sizeL xs ≤ n → (∀ x ∈ xs, WfJ x) → sizeL xs ≤ fuel →
        parseF fuel (.elems acc)
            (prettyElems xs lvl ++ '\n' :: (indentChars lvl2 ++ ']' :: rest))
          = some (.arr (acc ++ xs), rest)) := by
  intro n
  induction n using Nat.strong_induction_on with
  | _ n IH =>
  refine ⟨?_, ?_, ?_⟩
  · intro v lvl rest fuel hsn hwf hrest hsf
    cases hwf with
    | null => exact parseF_pretty_null lvl rest fuel (by simp only [sizeJ] at hsf; omega)
    | bool b => exact parseF_pretty_bool b lvl rest fuel (by simp only [sizeJ] at hsf; omega)
    | num k =>
      exact parseF_pretty_num k lvl rest fuel (by simp only [sizeJ] at hsf; omega) hrest
    | str s hs =>
      exact parseF_pretty_str s lvl rest fuel (by simp only [sizeJ] at hsf; omega)
        (fun c hc => hs c hc)
    | arr xs hx =>
      cases xs with
      | nil =>
        exact parseF_pretty_arr_nil lvl rest fuel
          (by simp only [sizeJ, sizeL] at hsf; omega)
      | cons x xs2 =>
        simp only [sizeJ] at hsn hsf
        cases fuel with
        | zero => exact absurd hsf (by omega)
        | succ f =>
          have hshape : prettyJ (.arr (x :: xs2)) lvl ++ rest
              = '[' :: '\n' :: (prettyElems (x :: xs2) (lvl + 1)
                  ++ ('\n' :: (indentChars lvl ++ ']' :: rest))) := by
            simp [prettyJ]
          rw [hshape, parseF]
          rw [skipWs_cons_neg '[' _ (by decide)]
          rw [if_neg (by simp)]
          rw [if_pos (by simp)]
          simp only [List.tail_cons]
          obtain ⟨tl, htl⟩ := prettyElems_cons_shape x xs2 (lvl + 1)
          obtain ⟨d, dt, hd, hdw, hd1, hd2⟩ := prettyJ_head x (lvl + 1)
          have hY : skipWs ('\n' :: (prettyElems (x :: xs2) (lvl + 1)
              ++ ('\n' :: (indentChars lvl ++ ']' :: rest))))
              = d :: (dt ++ (tl ++ ('\n' :: (indentChars lvl ++ ']' :: rest)))) := by
            rw [skipWs_cons_pos '\n' _ (by decide), htl, List.append_assoc,
              skipWs_indent, List.append_assoc, hd]
            simp only [List.cons_append]
            rw [skipWs_cons_neg d _ hdw]
          rw [if_neg (by rw [hY]; simp [hd1])]
          rw [parseF_elems_skipWs_eq]
          rw [parseF_elems_skips f '\n' [] _ (by decide)]
          have hm := (IH (sizeL (x :: xs2)) (by omega)).2.2 (x :: xs2) [] (lvl + 1)
            lvl rest f (by simp) le_rfl hx (by omega)
          rw [hm]
          simp
    | obj ms hk hv =>
      cases ms with
      | nil =>
        exact parseF_pretty_obj_nil lvl rest fuel
          (by simp only [sizeJ, sizeM] at hsf; omega)
      | cons m ms2 =>
        simp only [sizeJ] at hsn hsf
        cases fuel with
        | zero => exact absurd hsf (by omega)
        | succ f =>
          have hshape : prettyJ (.obj (m :: ms2)) lvl ++ rest
              = '{' :: '\n' :: (prettyMems (m :: ms2) (lvl + 1)
                  ++ ('\n' :: (indentChars lvl ++ '}' :: rest))) := by
            simp [prettyJ]
          rw [hshape, parseF]
          rw [skipWs_cons_neg '{' _ (by decide)]
          rw [if_pos (by simp)]
          simp only [List.tail_cons]
          obtain ⟨tl, htl⟩ := prettyMems_cons_shape m ms2 (lvl + 1)
          have hY : skipWs ('\n' :: (prettyMems (m :: ms2) (lvl + 1)
              ++ ('\n' :: (indentChars lvl ++ '}' :: rest))))
              = '"' :: (tl ++ ('\n' :: (indentChars lvl ++ '}' :: rest))) := by
            rw [skipWs_cons_pos '\n' _ (by decide), htl, List.append_assoc, skipWs_indent]
            simp only [List.cons_append]
            rw [skipWs_cons_neg '"' _ (by decide)]
          rw [if_neg (by rw [hY]; simp)]
          rw [parseF_mems_skipWs_eq]
          rw [parseF_mems_skips f '\n' [] _ (by decide)]
          have hm := (IH (sizeM (m :: ms2)) (by omega)).2.1 (m :: ms2) [] (lvl + 1)
            lvl rest f (by simp) le_rfl hk hv (by omega)
          rw [hm]
          simp
  · intro ms acc lvl lvl2 rest fuel hne hsn hk hv hsf
    cases ms with
    | nil => exact absurd rfl hne
    | cons kv ms2 =>
      obtain ⟨k, v⟩ := kv
      simp only [sizeM] at hsn hsf
      cases fuel with
      | zero => exact absurd hsf (by omega)
      | succ f =>
        have hkk : ∀ c ∈ k, wfChar c = true := by
          have hh := hk (k, v) (by simp)
          simpa using hh
        have hvv : WfJ v := by
          have hh := hv (k, v) (by simp)
          simpa using hh
        cases ms2 with
        | nil =>
          have hL : prettyMems [(k, v)] lvl ++ '\n' :: (indentChars lvl2 ++ '}' :: rest)
              = indentChars lvl ++ ('"' :: ((k.map escapeChar).flatten
                  ++ ('"' :: (':' :: (' ' :: (prettyJ v lvl
                      ++ ('\n' :: (indentChars lvl2 ++ '}' :: rest)))))))) := by
            simp [prettyMems, encStr]
          rw [hL, parseF]
          rw [skipWs_indent, skipWs_cons_neg '"' _ (by decide)]
          rw [if_pos (by simp)]
          simp only [List.tail_cons]
          rw [parseStringBody_enc k _ hkk]
          simp only [Option.some_bind]
          rw [skipWs_cons_neg ':' _ (by decide)]
          rw [if_pos (by simp)]
          simp only [List.tail_cons]
          rw [parseF_val_skips f ' ' _ (by decide)]
          have hval := (IH (sizeJ v) (by omega)).1 v lvl
            ('\n' :: (indentChars lvl2 ++ '}' :: rest)) f le_rfl hvv
            (Or.inr ⟨'\n', _, rfl, Or.inr rfl⟩) (by omega)
          rw [hval]
          simp only [Option.some_bind]
          rw [skipWs_cons_pos '\n' _ (by decide), skipWs_indent,
            skipWs_cons_neg '}' _ (by decide)]
          rw [if_neg (by simp)]
          rw [if_pos (by simp)]
          simp
        | cons m2 ms3 =>
          have hL : prettyMems ((k, v) :: m2 :: ms3) lvl
                ++ '\n' :: (indentChars lvl2 ++ '}' :: rest)
              = indentChars lvl ++ ('"' :: ((k.map escapeChar).flatten
                  ++ ('"' :: (':' :: (' ' :: (prettyJ v lvl
                      ++ (',' :: ('\n' :: (prettyMems (m2 :: ms3) lvl
                          ++ ('\n' :: (indentChars lvl2 ++ '}' :: rest))))))))))) := by
            simp [prettyMems, encStr]
          rw [hL, parseF]
          rw [skipWs_indent, skipWs_cons_neg '"' _ (by decide)]
          rw [if_pos (by simp)]
          simp only [List.tail_cons]
          rw [parseStringBody_enc k _ hkk]
          simp only [Option.some_bind]
          rw [skipWs_cons_neg ':' _ (by decide)]
          rw [if_pos (by simp)]
          simp only [List.tail_cons]
          rw [parseF_val_skips f ' ' _ (by decide)]
          have hval := (IH (sizeJ v) (by omega)).1 v lvl
            (',' :: ('\n' :: (prettyMems (m2 :: ms3) lvl
                ++ ('\n' :: (indentChars lvl2 ++ '}' :: rest))))) f le_rfl hvv
            (Or.inr ⟨',', _, rfl, Or.inl rfl⟩) (by omega)
          rw [hval]
          simp only [Option.some_bind]
          rw [skipWs_cons_neg ',' _ (by decide)]
          rw [if_pos (by simp)]
          simp only [List.tail_cons]
          rw [parseF_mems_skips f '\n' _ _ (by decide)]
          have hrec := (IH (sizeM (m2 :: ms3)) (by omega)).2.1 (m2 :: ms3)
            (acc ++ [(k, v)]) lvl lvl2 rest f (by simp) le_rfl
            (fun kv hkv => hk kv (List.mem_cons_of_mem _ hkv))
            (fun kv hkv => hv kv (List.mem_cons_of_mem _ hkv)) (by omega)
          rw [hrec]
          simp [List.append_assoc]
  · intro xs acc lvl lvl2 rest fuel hne hsn hx hsf
    cases xs with
    | nil => exact absurd rfl hne
    | cons x xs2 =>
      simp only [sizeL] at hsn hsf
      cases fuel with
      | zero => exact absurd hsf (by omega)
      | succ f =>
        have hxx : WfJ x := hx x (by simp)
        cases xs2 with
        | nil =>
          have hL : prettyElems [x] lvl ++ '\n' :: (indentChars lvl2 ++ ']' :: rest)
              = indentChars lvl ++ (prettyJ x lvl
                  ++ ('\n' :: (indentChars lvl2 ++ ']' :: rest))) := by
            simp [prettyElems]
          rw [hL, parseF]
          rw [parseF_val_indent f lvl _]
          have hval := (IH (sizeJ x) (by omega)).1 x lvl
            ('\n' :: (indentChars lvl2 ++ ']' :: rest)) f le_rfl hxx
            (Or.inr ⟨'\n', _, rfl, Or.inr rfl⟩) (by omega)
          rw [hval]
          simp only [Option.some_bind]
          rw [skipWs_cons_pos '\n' _ (by decide), skipWs_indent,
            skipWs_cons_neg ']' _ (by decide)]
          rw [if_neg (by simp)]
          rw [if_pos (by simp)]
          simp
        | cons y ys =>
          have hL : prettyElems (x :: y :: ys) lvl
                ++ '\n' :: (indentChars lvl2 ++ ']' :: rest)
              = indentChars lvl ++ (prettyJ x lvl
                  ++ (',' :: ('\n' :: (prettyElems (y :: ys) lvl
                      ++ ('\n' :: (indentChars lvl2 ++ ']' :: rest)))))) := by
            simp [prettyElems]
          rw [hL, parseF]
          rw [parseF_val_indent f lvl _]
          have hval := (IH (sizeJ x) (by omega)).1 x lvl
            (',' :: ('\n' :: (prettyElems (y :: ys) lvl
                ++ ('\n' :: (indentChars lvl2 ++ ']' :: rest))))) f le_rfl hxx
            (Or.inr ⟨',', _, rfl, Or.inl rfl⟩) (by omega)
          rw [hval]
          simp only [Option.some_bind]
          rw [skipWs_cons_neg ',' _ (by decide)]
          rw [if_pos (by simp)]
          simp only [List.tail_cons]
          rw [parseF_elems_skips f '\n' _ _ (by decide)]
          have hrec := (IH (sizeL (y :: ys)) (by omega)).2.2 (y :: ys) (acc ++ [x])
            lvl lvl2 rest f (by simp) le_rfl
            (fun z hz => hx z (List.mem_cons_of_mem _ hz)) (by omega)
          rw [hrec]
          simp [List.append_assoc]

theorem pretty_len_bound : ∀ n : Nat,
    (∀ (v : Json) (lvl : Nat), sizeJ v ≤ n → sizeJ v ≤ 2 * (prettyJ v lvl).length) ∧
    (∀ (ms : List (List Char × Json)) (lvl : Nat), ms ≠ [] → 1 ≤ lvl → sizeM ms ≤ n →
        sizeM ms ≤ 2 * (prettyMems ms lvl).length) ∧
    (∀ (xs : List Json) (lvl : Nat), xs ≠ [] → 1 ≤ lvl → sizeL xs ≤ n →
        sizeL xs ≤ 2 * (prettyElems xs lvl).length) := by
  intro n
  induction n using Nat.strong_induction_on with
  | _ n IH =>
  refine ⟨?_, ?_, ?_⟩
  · intro v lvl hsn
    cases v with
    | null =>
      obtain ⟨d, tl, hd, _, _, _⟩ := prettyJ_head .null lvl
      rw [hd]
      simp only [sizeJ, List.length_cons]
      omega
    | bool b =>
      obtain ⟨d, tl, hd, _, _, _⟩ := prettyJ_head (.bool b) lvl
      rw [hd]
      simp only [sizeJ, List.length_cons]
      omega
    | num k =>
      obtain ⟨d, tl, hd, _, _, _⟩ := prettyJ_head (.num k) lvl
      rw [hd]
      simp only [sizeJ, List.length_cons]
      omega
    | str s =>
      obtain ⟨d, tl, hd, _, _, _⟩ := prettyJ_head (.str s) lvl
      rw [hd]
      simp only [sizeJ, List.length_cons]
      omega
    | arr xs =>
      cases xs with
      | nil =>
        have hpj : prettyJ (.arr []) lvl = ['[', ']'] := by simp [prettyJ]
        rw [hpj]
        simp [sizeJ, sizeL]
      | cons x xs2 =>
        simp only [sizeJ] at hsn ⊢
        have hlen : (prettyJ (.arr (x :: xs2)) lvl).length
            = (prettyElems (x :: xs2) (lvl + 1)).length + 2 * lvl + 4 := by
          simp [prettyJ, indentChars]
          omega
        have hrec := (IH (sizeL (x :: xs2)) (by omega)).2.2 (x :: xs2) (lvl + 1)
          (by simp) (by omega) le_rfl
        omega
    | obj ms =>
      cases ms with
      | nil =>
        have hpj : prettyJ (.obj []) lvl = ['{', '}'] := by simp [prettyJ]
        rw [hpj]
        simp [sizeJ, sizeM]
      | cons m ms2 =>
        simp only [sizeJ] at hsn ⊢
        have hlen : (prettyJ (.obj (m :: ms2)) lvl).length
            = (prettyMems (m :: ms2) (lvl + 1)).length + 2 * lvl + 4 := by
          simp [prettyJ, indentChars]
          omega
        have hrec := (IH (sizeM (m :: ms2)) (by omega)).2.1 (m :: ms2) (lvl + 1)
          (by simp) (by omega) le_rfl
        omega
  · intro ms lvl hne hlv hsn
    cases ms with
    | nil => exact absurd rfl hne
    | cons kv ms2 =>
      obtain ⟨k, v⟩ := kv
      simp only [sizeM] at hsn ⊢
      have hrecv := (IH (sizeJ v) (by omega)).1 v lvl le_rfl
      cases ms2 with
      | nil =>
        have hlen : (prettyMems [(k, v)] lvl).length
            = 2 * lvl + (encStr k).length + 2 + (prettyJ v lvl).length := by
          simp [prettyMems, indentChars]
          omega
        simp only [sizeM]
        omega
      | cons m2 ms3 =>
        have hrecm := (IH (sizeM (m2 :: ms3)) (by omega)).2.1 (m2 :: ms3) lvl
          (by simp) hlv le_rfl
        have hlen : (prettyMems ((k, v) :: m2 :: ms3) lvl).length
            = 2 * lvl + (encStr k).length + 2 + (prettyJ v lvl).length + 2
              + (prettyMems (m2 :: ms3) lvl).length := by
          simp [prettyMems, indentChars]
          omega
        omega
  · intro xs lvl hne hlv hsn
    cases xs with
    | nil => exact absurd rfl hne
    | cons x xs2 =>
      simp only [sizeL] at hsn ⊢
      have hrecv := (IH (sizeJ x) (by omega)).1 x lvl le_rfl
      cases xs2 with
      | nil =>
        have hlen : (prettyElems [x] lvl).length
            = 2 * lvl + (prettyJ x lvl).length := by
          simp [prettyElems, indentChars]
        simp only [sizeL]
        omega
      | cons y ys =>
        have hrecl := (IH (sizeL (y :: ys)) (by omega)).2.2 (y :: ys) lvl
          (by simp) hlv le_rfl
        have hlen : (prettyElems (x :: y :: ys) lvl).length
            = 2 * lvl + (prettyJ x lvl).length + 2
              + (prettyElems (y :: ys) lvl).length := by
          simp [prettyElems, indentChars]
          omega
        omega

theorem prettyJ_obj_shape (ms : List (List Char × Json)) :
    ∃ mid, prettyJ (.obj ms) 0 = '{' :: (mid ++ ['}']) := by
  cases ms with
  | nil =>
    refine ⟨[], ?_⟩
    simp [prettyJ]
  | cons m ms2 =>
    refine ⟨'\n' :: (prettyMems (m :: ms2) 1 ++ ['\n']), ?_⟩
    simp [prettyJ, indentChars]

theorem jsonParse_pretty (ms : List (List Char × Json)) (h : WfJ (.obj ms)) :
    jsonParse (prettyJ (.obj ms) 0) = some (.obj ms) := by
  obtain ⟨mid, hmid⟩ := prettyJ_obj_shape ms
  have hstrip : jsonStrip (prettyJ (.obj ms) 0) = prettyJ (.obj ms) 0 := by
    rw [hmid]
    have hss := jsonStrip_sandwich [] [] mid '{' '}' (by simp) (by simp)
      (by decide) (by decide)
    simpa using hss
  have hbound := (pretty_len_bound (sizeJ (.obj ms))).1 (.obj ms) 0 le_rfl
  have hparse : parseF (2 * (prettyJ (.obj ms) 0).length + 2) .val
      (prettyJ (.obj ms) 0) = some (.obj ms, []) := by
    have hp := (parse_pretty_main (sizeJ (.obj ms))).1 (.obj ms) 0 []
      (2 * (prettyJ (.obj ms) 0).length + 2) le_rfl h (Or.inl rfl) (by omega)
    rw [List.append_nil] at hp
    exact hp
  exact jsonParse_of_core _ _ hparse hstrip

/-- C6: round-trip through the response parser. If `s` parses (as `json.loads`
does) to a JSON object `m`, then `_parse_json_response` applied to `s` wrapped
in a ```json-tagged fence, wrapped in a bare ``` fence, or not wrapped at all
returns exactly the object `m`; and `format_as_json` of that parse result
re-serialises to a string that `json.loads` parses back to the same object `m`
(same key list and values). -/
theorem C6_parse_format_roundtrip (s : List Char) (m : List (List Char × Json))
    (hs : jsonParse s = some (.obj m)) :
    parseJsonResponse (wrapJsonFence s) = .ok (.obj m)
      ∧ parseJsonResponse (wrapBareFence s) = .ok (.obj m)
      ∧ parseJsonResponse s = .ok (.obj m)
      ∧ jsonParse (format_as_json (.obj m)) = some (.obj m) := by
  obtain ⟨w1, mid, w2, hdec, hw1, hw2⟩ := jsonParse_obj_decomp s m hs
  have hstripS : jsonStrip s = '{' :: (mid ++ ['}']) := by
    rw [hdec]
    exact jsonStrip_sandwich w1 w2 mid '{' '}' hw1 hw2 (by decide) (by decide)
  have hstripC : jsonStrip ('{' :: (mid ++ ['}'])) = '{' :: (mid ++ ['}']) := by
    have hss := jsonStrip_sandwich [] [] mid '{' '}' (by simp) (by simp)
      (by decide) (by decide)
    simpa using hss
  have hpf : parseF (2 * ('{' :: (mid ++ ['}'])).length + 2) .val
      ('{' :: (mid ++ ['}'])) = some (.obj m, []) := by
    have hc := jsonParse_obj_core s m hs
    rw [hstripS] at hc
    exact hc
  have hcore : jsonParse ('{' :: (mid ++ ['}'])) = some (.obj m) :=
    jsonParse_of_core _ _ hpf hstripC
  refine ⟨?_, ?_, ?_, ?_⟩
  · exact parseJsonResponse_of _ _
      (by rw [cleanResponse_wrapJson s mid w1 w2 hdec hw1 hw2]; exact hcore)
  · exact parseJsonResponse_of _ _
      (by rw [cleanResponse_wrapBare s mid w1 w2 hdec hw1 hw2]; exact hcore)
  · exact parseJsonResponse_of _ _
      (by rw [cleanResponse_core s mid w1 w2 hdec hw1 hw2]; exact hcore)
  · exact jsonParse_pretty m (jsonParse_wf s _ hs)

theorem C6_witness :
    jsonParse ['{', '"', 't', '"', ':', ' ', '"', 'X', '"', '}']
        = some (.obj [(['t'], .str ['X'])])
      ∧ (parseJsonResponse
            (wrapJsonFence ['{', '"', 't', '"', ':', ' ', '"', 'X', '"', '}'])
          = .ok (.obj [(['t'], .str ['X'])])
        ∧ parseJsonResponse
            (wrapBareFence ['{', '"', 't', '"', ':', ' ', '"', 'X', '"', '}'])
          = .ok (.obj [(['t'], .str ['X'])])
        ∧ parseJsonResponse ['{', '"', 't', '"', ':', ' ', '"', 'X', '"', '}']
          = .ok (.obj [(['t'], .str ['X'])])
        ∧ jsonParse (format_as_json (.obj [(['t'], .str ['X'])]))
          = some (.obj [(['t'], .str ['X'])])) :=
  ⟨by rfl, C6_parse_format_roundtrip ['{', '"', 't', '"', ':', ' ', '"', 'X', '"', '}']
    [(['t'], .str ['X'])] (by rfl)⟩

end ArticleExtractor
